import Mathlib

set_option maxRecDepth 4000

/-!
Verification of the schema-driven URL query-parameter codec of
kit-query-params (src/lib/utils.ts) against its natural-language
specification.

JavaScript strings are embedded as lists of characters (`Str`), so that the
textual operations the source uses (template concatenation with `.`,
`String.prototype.startsWith`, `String.prototype.split`) become list
operations that can be reasoned about directly.
-/

abbrev Str := List Char

def strOf (s : String) : Str := s.data

/-- Character-level model of `String.prototype.startsWith`: `strPre p s` is
true when `p` is a (character) prefix of `s`. -/
def strPre : Str → Str → Bool
  | [], _ => true
  | _ :: _, [] => false
  | a :: as, b :: bs => a = b && strPre as bs

theorem strPre_refl (s : Str) : strPre s s = true := by
  induction s with
  | nil => rfl
  | cons a as ih => simp [strPre, ih]

theorem strPre_append (p t : Str) : strPre p (p ++ t) = true := by
  induction p with
  | nil => rfl
  | cons a as ih => simp [strPre, ih]

theorem strPre_iff (p s : Str) : strPre p s = true ↔ ∃ t, s = p ++ t := by
  induction p generalizing s with
  | nil => simp [strPre]
  | cons a as ih =>
    cases s with
    | nil => simp [strPre]
    | cons b bs =>
      simp only [strPre, Bool.and_eq_true, decide_eq_true_eq, ih]
      constructor
      · rintro ⟨rfl, t, rfl⟩; exact ⟨t, rfl⟩
      · rintro ⟨t, h⟩
        cases h
        exact ⟨rfl, t, rfl⟩

theorem strPre_cancel (a x y : Str) : strPre (a ++ x) (a ++ y) = strPre x y := by
  induction a with
  | nil => rfl
  | cons c cs ih => simp [strPre, ih]

theorem strPre_length {p s : Str} (h : strPre p s = true) : p.length ≤ s.length := by
  rcases (strPre_iff p s).1 h with ⟨t, rfl⟩
  simp

theorem strPre_take {p s : Str} (h : strPre p s = true) : p = s.take p.length := by
  rcases (strPre_iff p s).1 h with ⟨t, rfl⟩
  simp

theorem strPre_trans {a b c : Str} (h1 : strPre a b = true) (h2 : strPre b c = true) :
    strPre a c = true := by
  rcases (strPre_iff a b).1 h1 with ⟨t, rfl⟩
  rcases (strPre_iff _ c).1 h2 with ⟨u, rfl⟩
  rw [List.append_assoc]
  exact strPre_append _ _

/-- Character-level model of `String.prototype.split(c)` (JavaScript
semantics: splitting the empty string yields one empty part, adjacent
separators yield empty parts). -/
def splitChar (c : Char) : Str → List Str
  | [] => [[]]
  | a :: rest =>
    if a = c then [] :: splitChar c rest
    else
      match splitChar c rest with
      | [] => [[a]]
      | h :: t => (a :: h) :: t

theorem splitChar_ne_nil (c : Char) (s : Str) : splitChar c s ≠ [] := by
  induction s with
  | nil => simp [splitChar]
  | cons a rest ih =>
    simp only [splitChar]
    by_cases h : a = c
    · simp [h]
    · simp only [h, if_false]
      cases hr : splitChar c rest with
      | nil => simp
      | cons x xs => simp

/-- Splitting at the first occurrence of a character satisfying `p`:
returns the part before it and (optionally) the remainder after it. -/
def splitFirstP (p : Char → Bool) : Str → Str × Option Str
  | [] => ([], none)
  | a :: rest =>
    if p a then ([], some rest)
    else
      let r := splitFirstP p rest
      (a :: r.1, r.2)

theorem splitFirstP_of_none (p : Char → Bool) (s : Str) (h : ∀ c ∈ s, p c = false) :
    splitFirstP p s = (s, none) := by
  induction s with
  | nil => rfl
  | cons a rest ih =>
    have ha : p a = false := h a (by simp)
    have hr := ih (fun c hc => h c (by simp [hc]))
    simp [splitFirstP, ha, hr]

theorem splitFirstP_hit (p : Char → Bool) (a b : Str) (ha : ∀ c ∈ a, p c = false)
    (c : Char) (hc : p c = true) :
    splitFirstP p (a ++ c :: b) = (a, some b) := by
  induction a with
  | nil => simp [splitFirstP, hc]
  | cons x xs ih =>
    have hx : p x = false := ha x (by simp)
    have hr := ih (fun d hd => ha d (by simp [hd]))
    simp [splitFirstP, hx, hr]

def digitChar : Nat → Char
  | 0 => '0'
  | 1 => '1'
  | 2 => '2'
  | 3 => '3'
  | 4 => '4'
  | 5 => '5'
  | 6 => '6'
  | 7 => '7'
  | 8 => '8'
  | _ => '9'

def digitVal (c : Char) : Nat := c.toNat - 48

theorem digitVal_digitChar {n : Nat} (h : n < 10) : digitVal (digitChar n) = n := by
  interval_cases n <;> rfl

theorem digitChar_isDigit : ∀ n : Nat, (digitChar n).isDigit = true
  | 0 => by decide
  | 1 => by decide
  | 2 => by decide
  | 3 => by decide
  | 4 => by decide
  | 5 => by decide
  | 6 => by decide
  | 7 => by decide
  | 8 => by decide
  | _ + 9 => rfl

theorem isDigit_ne_dot {c : Char} (h : c.isDigit = true) : ¬ c = '.' := by
  intro he
  rw [he] at h
  exact absurd h (by decide)

def natToDigitsGo : Nat → Nat → Str
  | 0, _ => []
  | f + 1, n => if n < 10 then [digitChar n] else natToDigitsGo f (n / 10) ++ [digitChar (n % 10)]

/-- Decimal digit string of a natural number, mirroring JavaScript
number-to-string conversion for naturals (structural fuel keeps the
definition kernel-reducible; the fuel provably suffices). -/
def natToDigits (n : Nat) : Str := natToDigitsGo (n + 1) n

theorem natToDigitsGo_stable : ∀ n f, n < f → natToDigitsGo f n = natToDigitsGo (n + 1) n := by
  intro n
  induction n using Nat.strong_induction_on with
  | _ n ih =>
    intro f hf
    match f with
    | g + 1 =>
      show natToDigitsGo (g + 1) n = natToDigitsGo (n + 1) n
      by_cases h : n < 10
      · simp [natToDigitsGo, h]
      · have hdiv : n / 10 < n := by omega
        have h1 : natToDigitsGo g (n / 10) = natToDigitsGo (n / 10 + 1) (n / 10) :=
          ih (n / 10) hdiv g (by omega)
        have h2 : natToDigitsGo n (n / 10) = natToDigitsGo (n / 10 + 1) (n / 10) :=
          ih (n / 10) hdiv n (by omega)
        simp [natToDigitsGo, h, h1, h2]

theorem natToDigits_eq (n : Nat) :
    natToDigits n = if n < 10 then [digitChar n] else natToDigits (n / 10) ++ [digitChar (n % 10)] := by
  unfold natToDigits
  by_cases h : n < 10
  · simp [natToDigitsGo, h]
  · have hdiv : n / 10 < n := by omega
    have h1 : natToDigitsGo n (n / 10) = natToDigitsGo (n / 10 + 1) (n / 10) :=
      natToDigitsGo_stable (n / 10) n (by omega)
    simp [natToDigitsGo, h, h1]

/-- Numeric value of a digit string, tolerating leading zeros (the value a
JavaScript numeric parse would assign to a digit run). -/
def valLZ (s : Str) : Nat := s.foldl (fun a c => 10 * a + digitVal c) 0

def allDigits (s : Str) : Bool := s.all Char.isDigit

theorem valLZ_go (s : Str) (a : Nat) :
    s.foldl (fun a c => 10 * a + digitVal c) a = a * 10 ^ s.length + valLZ s := by
  induction s generalizing a with
  | nil => simp [valLZ]
  | cons c cs ih =>
    rw [List.foldl_cons, ih]
    have h2 : valLZ (c :: cs) = digitVal c * 10 ^ cs.length + valLZ cs := by
      have h3 : valLZ (c :: cs)
          = List.foldl (fun a c => 10 * a + digitVal c) (10 * 0 + digitVal c) cs := rfl
      rw [h3, ih]
      ring
    rw [h2, List.length_cons]
    ring

theorem valLZ_append (a b : Str) : valLZ (a ++ b) = valLZ a * 10 ^ b.length + valLZ b := by
  simp only [valLZ]
  rw [List.foldl_append, valLZ_go]
  rfl

theorem valLZ_natToDigits (n : Nat) : valLZ (natToDigits n) = n := by
  induction n using Nat.strong_induction_on with
  | _ n ih =>
    rw [natToDigits_eq]
    by_cases h : n < 10
    · simp [h, valLZ, digitVal_digitChar h]
    · simp only [h, if_false]
      rw [valLZ_append, ih (n / 10) (by omega)]
      simp [valLZ, digitVal_digitChar (Nat.mod_lt n (by omega))]
      omega

theorem natToDigits_ne_nil (n : Nat) : natToDigits n ≠ [] := by
  rw [natToDigits_eq]
  by_cases h : n < 10 <;> simp [h]

theorem natToDigits_allDigits (n : Nat) : allDigits (natToDigits n) = true := by
  induction n using Nat.strong_induction_on with
  | _ n ih =>
    rw [natToDigits_eq]
    by_cases h : n < 10
    · simp [h, allDigits, digitChar_isDigit]
    · simp only [h, if_false]
      have h2 := ih (n / 10) (by omega)
      simp only [allDigits, List.all_append, List.all_cons, List.all_nil] at h2 ⊢
      simp [h2, digitChar_isDigit]

theorem natToDigits_dotFree (n : Nat) : ∀ c ∈ natToDigits n, ¬ c = '.' := by
  intro c hc
  have h := natToDigits_allDigits n
  simp only [allDigits, List.all_eq_true] at h
  exact isDigit_ne_dot (h c hc)

theorem valLZ_le_of_strPre {a b : Str} (h : strPre a b = true) : valLZ a ≤ valLZ b := by
  rcases (strPre_iff a b).1 h with ⟨t, rfl⟩
  rw [valLZ_append]
  have : valLZ a ≤ valLZ a * 10 ^ t.length := by
    have : 1 ≤ 10 ^ t.length := Nat.one_le_pow _ _ (by omega)
    calc valLZ a = valLZ a * 1 := by ring
    _ ≤ valLZ a * 10 ^ t.length := Nat.mul_le_mul_left _ this
  omega

theorem natToDigits_inj {a b : Nat} (h : natToDigits a = natToDigits b) : a = b := by
  have := valLZ_natToDigits a
  rw [h, valLZ_natToDigits] at this
  omega

theorem natToDigits_length_le {m k : Nat} (hk : 0 < k) (h : m < 10 ^ k) :
    (natToDigits m).length ≤ k := by
  induction m using Nat.strong_induction_on generalizing k with
  | _ m ih =>
    rw [natToDigits_eq]
    by_cases hm : m < 10
    · simp only [hm, if_true, List.length_cons, List.length_nil]
      omega
    · simp only [hm, if_false, List.length_append, List.length_cons, List.length_nil]
      have h2 : m / 10 < 10 ^ (k - 1) := by
        have h10 : 10 ^ k = 10 ^ (k - 1) * 10 := by
          conv_lhs => rw [show k = (k - 1) + 1 by omega]
          rw [pow_succ]
        rw [h10] at h
        omega
      by_cases hk2 : 0 < k - 1
      · have := ih (m / 10) (by omega) hk2 h2
        omega
      · exfalso
        have hke : k = 1 := by omega
        subst hke
        simp at h2
        omega

def padZeros (k : Nat) (s : Str) : Str := List.replicate (k - s.length) '0' ++ s

theorem valLZ_replicate_zero (m : Nat) : valLZ (List.replicate m '0') = 0 := by
  induction m with
  | zero => rfl
  | succ k ih =>
    rw [List.replicate_succ]
    simp only [valLZ, List.foldl_cons] at ih ⊢
    have h0 : 10 * 0 + digitVal '0' = 0 := by decide
    rw [h0]
    exact ih

theorem valLZ_padZeros (k : Nat) (s : Str) : valLZ (padZeros k s) = valLZ s := by
  unfold padZeros
  rw [valLZ_append, valLZ_replicate_zero]
  simp

theorem padZeros_length {k : Nat} {s : Str} (h : s.length ≤ k) :
    (padZeros k s).length = k := by
  simp [padZeros]
  omega

theorem padZeros_allDigits (k : Nat) {s : Str} (h : allDigits s = true) :
    allDigits (padZeros k s) = true := by
  simp only [padZeros, allDigits, List.all_append, Bool.and_eq_true, List.all_eq_true] at h ⊢
  constructor
  · intro c hc
    rw [List.eq_of_mem_replicate hc]
    rfl
  · exact h

theorem padZeros_dotFree {k : Nat} {s : Str} (h : ∀ c ∈ s, ¬ c = '.') :
    ∀ c ∈ padZeros k s, ¬ c = '.' := by
  intro c hc
  simp only [padZeros, List.mem_append] at hc
  rcases hc with hc | hc
  · rw [List.eq_of_mem_replicate hc]; simp
  · exact h c hc

def toLowerStr (s : Str) : Str := s.map Char.toLower

/-!
JavaScript number model.

The coercion helpers (`coercePrimitive` in `src/lib/coerce.ts`) are not part
of the sources under verification, so the numeric grammar is modelled from
the specification: a number accepts decimal/exponent notation plus the
`Infinity` forms, anything else (including `NaN` and the empty string)
coerces to null.  Finite values are represented as rationals; every value
the parser can produce is a decimal rational (denominator dividing a power
of ten), which is exactly what makes printing exact.
-/

inductive NumV where
  | fin (q : ℚ)
  | posInf
  | negInf
  | nan
  deriving DecidableEq, Repr

/-- Modelled from the spec: decimal mantissa (`digits`, `digits.digits`,
`.digits`, `digits.`) of the host numeric parse. -/
def parseMant (s : Str) : Option ℚ :=
  let r := splitFirstP (fun c => c = '.') s
  match r.2 with
  | none => if r.1 ≠ [] ∧ allDigits r.1 then some ((valLZ r.1 : ℚ)) else none
  | some fp =>
    if (r.1 ≠ [] ∨ fp ≠ []) ∧ allDigits r.1 ∧ allDigits fp then
      some ((valLZ r.1 : ℚ) + (valLZ fp : ℚ) / (10 : ℚ) ^ fp.length)
    else none

def parseExpPart (s : Str) : Option ℤ :=
  match s with
  | '-' :: ds => if ds ≠ [] ∧ allDigits ds then some (-(valLZ ds : ℤ)) else none
  | '+' :: ds => if ds ≠ [] ∧ allDigits ds then some ((valLZ ds : ℤ)) else none
  | ds => if ds ≠ [] ∧ allDigits ds then some ((valLZ ds : ℤ)) else none

/-- Modelled from the spec: host numeric parse of an unsigned
decimal/exponent literal. -/
def parseUnsignedQ (s : Str) : Option ℚ :=
  let r := splitFirstP (fun c => c = 'e' ∨ c = 'E') s
  match r.2 with
  | none => parseMant r.1
  | some es =>
    match parseMant r.1, parseExpPart es with
    | some q, some ex => some (q * (10 : ℚ) ^ ex)
    | _, _ => none

/-- Modelled from the spec: the host `Number(string)` conversion restricted
to the forms the spec names (decimal/exponent notation, `Infinity`,
`-Infinity`); everything else fails. -/
def parseNum (s : Str) : Option NumV :=
  if s = strOf "Infinity" then some .posInf
  else if s = strOf "-Infinity" then some .negInf
  else
    match s with
    | [] => none
    | c :: rest =>
      if c = '-' then (parseUnsignedQ rest).map (fun q => .fin (-q))
      else (parseUnsignedQ (c :: rest)).map .fin

def isSmooth25Go : Nat → Nat → Bool
  | 0, _ => false
  | f + 1, n =>
    if n = 0 then false
    else if n = 1 then true
    else if n % 2 = 0 then isSmooth25Go f (n / 2)
    else if n % 5 = 0 then isSmooth25Go f (n / 5)
    else false

/-- Decides whether a denominator is of the form `2^a * 5^b`, i.e. whether
the rational has a finite decimal expansion (structural fuel keeps the
definition kernel-reducible). -/
def isSmooth25 (n : Nat) : Bool := isSmooth25Go (n + 1) n

theorem isSmooth25Go_stable : ∀ n f, n < f → isSmooth25Go f n = isSmooth25Go (n + 1) n := by
  intro n
  induction n using Nat.strong_induction_on with
  | _ n ih =>
    intro f hf
    match f with
    | g + 1 =>
      show isSmooth25Go (g + 1) n = isSmooth25Go (n + 1) n
      by_cases h0 : n = 0
      · simp [isSmooth25Go, h0]
      · by_cases h1 : n = 1
        · simp [isSmooth25Go, h0, h1]
        · by_cases h2 : n % 2 = 0
          · have hdiv : n / 2 < n := by omega
            have e1 : isSmooth25Go g (n / 2) = isSmooth25Go (n / 2 + 1) (n / 2) :=
              ih (n / 2) hdiv g (by omega)
            have e2 : isSmooth25Go n (n / 2) = isSmooth25Go (n / 2 + 1) (n / 2) :=
              ih (n / 2) hdiv n (by omega)
            simp [isSmooth25Go, h0, h1, h2, e1, e2]
          · by_cases h5 : n % 5 = 0
            · have hdiv : n / 5 < n := by omega
              have e1 : isSmooth25Go g (n / 5) = isSmooth25Go (n / 5 + 1) (n / 5) :=
                ih (n / 5) hdiv g (by omega)
              have e2 : isSmooth25Go n (n / 5) = isSmooth25Go (n / 5 + 1) (n / 5) :=
                ih (n / 5) hdiv n (by omega)
              simp [isSmooth25Go, h0, h1, h2, h5, e1, e2]
            · simp [isSmooth25Go, h0, h1, h2, h5]

theorem isSmooth25_eq (n : Nat) : isSmooth25 n
    = (if n = 0 then false
      else if n = 1 then true
      else if n % 2 = 0 then isSmooth25 (n / 2)
      else if n % 5 = 0 then isSmooth25 (n / 5)
      else false) := by
  unfold isSmooth25
  by_cases h0 : n = 0
  · simp [isSmooth25Go, h0]
  · by_cases h1 : n = 1
    · simp [isSmooth25Go, h0, h1]
    · by_cases h2 : n % 2 = 0
      · have e1 : isSmooth25Go n (n / 2) = isSmooth25Go (n / 2 + 1) (n / 2) :=
          isSmooth25Go_stable (n / 2) n (by omega)
        simp [isSmooth25Go, h0, h1, h2, e1]
      · by_cases h5 : n % 5 = 0
        · have e1 : isSmooth25Go n (n / 5) = isSmooth25Go (n / 5 + 1) (n / 5) :=
            isSmooth25Go_stable (n / 5) n (by omega)
          simp [isSmooth25Go, h0, h1, h2, h5, e1]
        · simp [isSmooth25Go, h0, h1, h2, h5]

def smoothExpGo : Nat → Nat → Nat
  | 0, _ => 0
  | f + 1, n =>
    if n ≤ 1 then 0
    else if n % 2 = 0 then smoothExpGo f (n / 2) + 1
    else if n % 5 = 0 then smoothExpGo f (n / 5) + 1
    else 0

/-- Exponent `k` such that a 2-5-smooth `n` divides `10 ^ k`. -/
def smoothExp (n : Nat) : Nat := smoothExpGo (n + 1) n

theorem smoothExpGo_stable : ∀ n f, n < f → smoothExpGo f n = smoothExpGo (n + 1) n := by
  intro n
  induction n using Nat.strong_induction_on with
  | _ n ih =>
    intro f hf
    match f with
    | g + 1 =>
      show smoothExpGo (g + 1) n = smoothExpGo (n + 1) n
      by_cases h1 : n ≤ 1
      · simp [smoothExpGo, h1]
      · by_cases h2 : n % 2 = 0
        · have hdiv : n / 2 < n := by omega
          have e1 : smoothExpGo g (n / 2) = smoothExpGo (n / 2 + 1) (n / 2) :=
            ih (n / 2) hdiv g (by omega)
          have e2 : smoothExpGo n (n / 2) = smoothExpGo (n / 2 + 1) (n / 2) :=
            ih (n / 2) hdiv n (by omega)
          simp [smoothExpGo, h1, h2, e1, e2]
        · by_cases h5 : n % 5 = 0
          · have hdiv : n / 5 < n := by omega
            have e1 : smoothExpGo g (n / 5) = smoothExpGo (n / 5 + 1) (n / 5) :=
              ih (n / 5) hdiv g (by omega)
            have e2 : smoothExpGo n (n / 5) = smoothExpGo (n / 5 + 1) (n / 5) :=
              ih (n / 5) hdiv n (by omega)
            simp [smoothExpGo, h1, h2, h5, e1, e2]
          · simp [smoothExpGo, h1, h2, h5]

theorem smoothExp_eq (n : Nat) : smoothExp n
    = (if n ≤ 1 then 0
      else if n % 2 = 0 then smoothExp (n / 2) + 1
      else if n % 5 = 0 then smoothExp (n / 5) + 1
      else 0) := by
  unfold smoothExp
  by_cases h1 : n ≤ 1
  · simp [smoothExpGo, h1]
  · by_cases h2 : n % 2 = 0
    · have e1 : smoothExpGo n (n / 2) = smoothExpGo (n / 2 + 1) (n / 2) :=
        smoothExpGo_stable (n / 2) n (by omega)
      simp [smoothExpGo, h1, h2, e1]
    · by_cases h5 : n % 5 = 0
      · have e1 : smoothExpGo n (n / 5) = smoothExpGo (n / 5 + 1) (n / 5) :=
          smoothExpGo_stable (n / 5) n (by omega)
        simp [smoothExpGo, h1, h2, h5, e1]
      · simp [smoothExpGo, h1, h2, h5]

theorem isSmooth25_dvd {n : Nat} (h : isSmooth25 n = true) : n ∣ 10 ^ smoothExp n := by
  induction n using Nat.strong_induction_on with
  | _ n ih =>
    rw [isSmooth25_eq] at h
    rw [smoothExp_eq]
    by_cases h0 : n = 0
    · simp [h0] at h
    · by_cases h1 : n = 1
      · simp [h1]
      · simp only [h0, if_false, h1] at h
        have hle : ¬ n ≤ 1 := by omega
        by_cases h2 : n % 2 = 0
        · simp only [h2, if_true] at h
          have hd := ih (n / 2) (by omega) h
          simp only [hle, if_false, h2, if_true]
          have hn : n = 2 * (n / 2) := by omega
          calc n = 2 * (n / 2) := hn
          _ ∣ 10 * 10 ^ smoothExp (n / 2) := Nat.mul_dvd_mul (by omega) hd
          _ = 10 ^ (smoothExp (n / 2) + 1) := by ring
        · simp only [h2, if_false] at h
          by_cases h5 : n % 5 = 0
          · simp only [h5, if_true] at h
            have hd := ih (n / 5) (by omega) h
            simp only [hle, if_false, h2, if_false, h5, if_true]
            have hn : n = 5 * (n / 5) := by omega
            calc n = 5 * (n / 5) := hn
            _ ∣ 10 * 10 ^ smoothExp (n / 5) := Nat.mul_dvd_mul (by omega) hd
            _ = 10 ^ (smoothExp (n / 5) + 1) := by ring
          · simp [h5] at h

theorem isSmooth25_of_dvd {n k : Nat} (hn : n ≠ 0) (h : n ∣ 10 ^ k) :
    isSmooth25 n = true := by
  induction n using Nat.strong_induction_on with
  | _ n ih =>
    rw [isSmooth25_eq]
    by_cases h1 : n = 1
    · simp [hn, h1]
    · have hge : 2 ≤ n := by omega
      by_cases h2 : n % 2 = 0
      · simp only [hn, if_false, h1, h2, if_true]
        exact ih (n / 2) (by omega) (by omega) (dvd_trans (Nat.div_dvd_of_dvd (by omega)) h)
      · by_cases h5 : n % 5 = 0
        · simp only [hn, if_false, h1, h2, if_true, h5]
          exact ih (n / 5) (by omega) (by omega) (dvd_trans (Nat.div_dvd_of_dvd (by omega)) h)
        · exfalso
          have hc2 : Nat.Coprime n 2 :=
            Nat.Coprime.symm (Nat.prime_two.coprime_iff_not_dvd.2 (by omega))
          have hc5 : Nat.Coprime n 5 :=
            Nat.Coprime.symm ((by norm_num : Nat.Prime 5).coprime_iff_not_dvd.2 (by omega))
          have hc10 : Nat.Coprime n 10 := by
            have := Nat.Coprime.mul_right hc2 hc5
            simpa using this
          have hck : Nat.Coprime n (10 ^ k) := Nat.Coprime.pow_right k hc10
          have := Nat.Coprime.eq_one_of_dvd hck h
          omega

/-- Numerator of the decimal expansion of `q` (for 2-5-smooth
denominators): `q * 10 ^ smoothExp q.den` as a natural number. -/
def decN (q : ℚ) : Nat := q.num.natAbs * 10 ^ smoothExp q.den / q.den

/-- Decimal printing of a nonnegative rational with finite decimal
expansion, mirroring JavaScript `Number.prototype.toString`. -/
def printQnn (q : ℚ) : Str :=
  if smoothExp q.den = 0 then natToDigits (decN q)
  else
    natToDigits (decN q / 10 ^ smoothExp q.den)
      ++ '.' :: padZeros (smoothExp q.den) (natToDigits (decN q % 10 ^ smoothExp q.den))

def printQ (q : ℚ) : Str := if q < 0 then '-' :: printQnn (-q) else printQnn q

def numToStr : NumV → Str
  | .fin q => printQ q
  | .posInf => strOf "Infinity"
  | .negInf => strOf "-Infinity"
  | .nan => strOf "NaN"

theorem printQnn_chars (q : ℚ) : ∀ c ∈ printQnn q, c.isDigit = true ∨ c = '.' := by
  intro c hc
  unfold printQnn at hc
  by_cases hk : smoothExp q.den = 0
  · simp only [hk, if_true] at hc
    have := natToDigits_allDigits (decN q)
    simp only [allDigits, List.all_eq_true] at this
    exact Or.inl (this c hc)
  · simp only [hk, if_false, List.mem_append, List.mem_cons] at hc
    rcases hc with hc | hc | hc
    · have := natToDigits_allDigits (decN q / 10 ^ smoothExp q.den)
      simp only [allDigits, List.all_eq_true] at this
      exact Or.inl (this c hc)
    · exact Or.inr hc
    · have hb := padZeros_allDigits (smoothExp q.den)
        (natToDigits_allDigits (decN q % 10 ^ smoothExp q.den))
      simp only [allDigits, List.all_eq_true] at hb
      exact Or.inl (hb c hc)

theorem printQnn_ne_nil (q : ℚ) : printQnn q ≠ [] := by
  unfold printQnn
  by_cases hk : smoothExp q.den = 0
  · simp [hk, natToDigits_ne_nil]
  · simp [hk, natToDigits_ne_nil]

theorem printQ_chars (q : ℚ) : ∀ c ∈ printQ q, c.isDigit = true ∨ c = '.' ∨ c = '-' := by
  intro c hc
  unfold printQ at hc
  by_cases hq : q < 0
  · simp only [hq, if_true, List.mem_cons] at hc
    rcases hc with hc | hc
    · exact Or.inr (Or.inr hc)
    · rcases printQnn_chars (-q) c hc with h | h
      · exact Or.inl h
      · exact Or.inr (Or.inl h)
  · simp only [hq, if_false] at hc
    rcases printQnn_chars q c hc with h | h
    · exact Or.inl h
    · exact Or.inr (Or.inl h)

theorem printQ_ne_nil (q : ℚ) : printQ q ≠ [] := by
  unfold printQ
  by_cases hq : q < 0
  · simp [hq]
  · simp [hq, printQnn_ne_nil]

theorem decN_cast {q : ℚ} (hq : 0 ≤ q) (hs : isSmooth25 q.den = true) :
    (decN q : ℚ) = q * (10 : ℚ) ^ smoothExp q.den := by
  have hdvd : q.den ∣ 10 ^ smoothExp q.den := isSmooth25_dvd hs
  have hd2 : q.den ∣ q.num.natAbs * 10 ^ smoothExp q.den := Dvd.dvd.mul_left hdvd _
  have hmul : decN q * q.den = q.num.natAbs * 10 ^ smoothExp q.den :=
    Nat.div_mul_cancel hd2
  have hnum : (0 : ℤ) ≤ q.num := Rat.num_nonneg.2 hq
  have hden0 : (q.den : ℚ) ≠ 0 := by
    have := q.den_nz
    exact_mod_cast this
  have hcast : ((q.num.natAbs : ℚ)) = (q.num : ℚ) := by
    rw [Int.cast_natAbs]
    exact congrArg (fun z : ℤ => (z : ℚ)) (abs_of_nonneg hnum)
  have hq2 : (q.num : ℚ) / (q.den : ℚ) = q := Rat.num_div_den q
  have hc : (decN q : ℚ) * (q.den : ℚ) = (q.num : ℚ) * (10 : ℚ) ^ smoothExp q.den := by
    rw [← hcast]
    exact_mod_cast congrArg (fun n : ℕ => (n : ℚ)) hmul
  have key : ∀ x : ℚ, x = (q.num : ℚ) / (q.den : ℚ) → x * (q.den : ℚ) = (q.num : ℚ) := by
    intro x hx
    rw [hx]
    exact div_mul_cancel₀ _ hden0
  have hqd := key q hq2.symm
  apply mul_right_cancel₀ hden0
  rw [hc]
  linear_combination (-(10:ℚ) ^ smoothExp q.den) * hqd

theorem parseMant_printQnn {q : ℚ} (hq : 0 ≤ q) (hs : isSmooth25 q.den = true) :
    parseMant (printQnn q) = some q := by
  have hN := decN_cast hq hs
  by_cases hk : smoothExp q.den = 0
  · have hden : q.den = 1 := by
      have := isSmooth25_dvd hs
      rw [hk] at this
      simpa using this
    have hNq : (decN q : ℚ) = q := by
      rw [hN, hk]
      simp
    unfold printQnn
    simp only [hk, if_true]
    unfold parseMant
    rw [splitFirstP_of_none _ _
      (fun c hc => decide_eq_false (natToDigits_dotFree (decN q) c hc))]
    simp [natToDigits_ne_nil, natToDigits_allDigits, valLZ_natToDigits, hNq]
  · have hkpos : 0 < smoothExp q.den := by omega
    have hpow0 : (0:ℕ) < 10 ^ smoothExp q.den := Nat.pos_pow_of_pos _ (by omega)
    have hlen : (padZeros (smoothExp q.den)
        (natToDigits (decN q % 10 ^ smoothExp q.den))).length = smoothExp q.den :=
      padZeros_length (natToDigits_length_le hkpos (Nat.mod_lt _ hpow0))
    unfold printQnn
    simp only [hk, if_false]
    unfold parseMant
    rw [splitFirstP_hit _ _ _
      (fun c hc => decide_eq_false (natToDigits_dotFree _ c hc)) _ (by decide)]
    simp only [natToDigits_ne_nil, natToDigits_allDigits,
      padZeros_allDigits _ (natToDigits_allDigits _), and_true, true_and, ne_eq,
      not_false_eq_true, true_or, if_true, hlen]
    rw [valLZ_natToDigits, valLZ_padZeros, valLZ_natToDigits]
    congr 1
    have hmod : 10 ^ smoothExp q.den * (decN q / 10 ^ smoothExp q.den)
        + decN q % 10 ^ smoothExp q.den = decN q := Nat.div_add_mod _ _
    have hpowQ : ((10 : ℚ)) ^ smoothExp q.den ≠ 0 := by positivity
    have hstep : ((decN q / 10 ^ smoothExp q.den : ℕ) : ℚ)
        + ((decN q % 10 ^ smoothExp q.den : ℕ) : ℚ) / (10:ℚ) ^ smoothExp q.den
        = ((decN q : ℕ) : ℚ) / (10:ℚ) ^ smoothExp q.den := by
      rw [eq_div_iff hpowQ, add_mul, div_mul_cancel₀ _ hpowQ]
      have hcm := congrArg (fun n : ℕ => (n : ℚ)) hmod
      push_cast at hcm
      linarith [hcm]
    rw [hstep, hN]
    field_simp

theorem parseUnsignedQ_printQnn {q : ℚ} (hq : 0 ≤ q) (hs : isSmooth25 q.den = true) :
    parseUnsignedQ (printQnn q) = some q := by
  unfold parseUnsignedQ
  rw [splitFirstP_of_none _ _ (fun c hc => by
    rcases printQnn_chars q c hc with h | h
    · apply decide_eq_false
      rintro (rfl | rfl) <;> exact absurd h (by decide)
    · subst h
      apply decide_eq_false
      rintro (h | h) <;> exact absurd h (by decide))]
  exact parseMant_printQnn hq hs

theorem printQnn_ne_inf (q : ℚ) : printQnn q ≠ strOf "Infinity" := by
  intro h
  have hmem : 'I' ∈ printQnn q := by
    rw [h]
    decide
  rcases printQnn_chars q 'I' hmem with h2 | h2
  · exact absurd h2 (by decide)
  · exact absurd h2 (by decide)

theorem printQnn_ne_neginf (q : ℚ) : printQnn q ≠ strOf "-Infinity" := by
  intro h
  have hmem : '-' ∈ printQnn q := by
    rw [h]
    decide
  rcases printQnn_chars q '-' hmem with h2 | h2
  · exact absurd h2 (by decide)
  · exact absurd h2 (by decide)

theorem parseNum_printQ {q : ℚ} (hs : isSmooth25 q.den = true) :
    parseNum (printQ q) = some (.fin q) := by
  by_cases hq : q < 0
  · have hpr : printQ q = '-' :: printQnn (-q) := by simp [printQ, hq]
    have h1 : ¬ ('-' :: printQnn (-q)) = strOf "Infinity" := by
      intro h
      have : '-' ∈ strOf "Infinity" := by
        rw [← h]
        simp
      exact absurd this (by decide)
    have h2 : ¬ ('-' :: printQnn (-q)) = strOf "-Infinity" := by
      intro h
      have ht : printQnn (-q) = strOf "Infinity" := by
        have := congrArg List.tail h
        simpa using this
      exact printQnn_ne_inf (-q) ht
    have hsneg : isSmooth25 (-q).den = true := by
      rw [Rat.neg_den]
      exact hs
    rw [hpr]
    unfold parseNum
    rw [if_neg h1, if_neg h2]
    simp only [if_pos rfl]
    rw [parseUnsignedQ_printQnn (by linarith) hsneg]
    simp
  · have hq2 : 0 ≤ q := by linarith
    have hpr : printQ q = printQnn q := by simp [printQ, hq]
    have h1 : ¬ printQnn q = strOf "Infinity" := printQnn_ne_inf q
    have h2 : ¬ printQnn q = strOf "-Infinity" := printQnn_ne_neginf q
    obtain ⟨c, r, hcr⟩ : ∃ c r, printQnn q = c :: r := by
      cases hh : printQnn q with
      | nil => exact absurd hh (printQnn_ne_nil q)
      | cons c r => exact ⟨c, r, rfl⟩
    have hc : ¬ c = '-' := by
      have hmem : c ∈ printQnn q := by
        rw [hcr]
        simp
      rcases printQnn_chars q c hmem with h | h
      · intro he
        rw [he] at h
        exact absurd h (by decide)
      · intro he
        exact absurd (he ▸ h) (by decide)
    rw [hpr]
    unfold parseNum
    rw [if_neg h1, if_neg h2, hcr]
    simp only [if_neg hc]
    rw [← hcr, parseUnsignedQ_printQnn hq2 hs]
    rfl

/-- Rationals with a finite decimal expansion: exactly the values the
numeric parse can produce. -/
def IsDec (q : ℚ) : Prop := ∃ (a : ℤ) (k : ℕ), q = (a : ℚ) / (10:ℚ) ^ k

theorem isDec_natCast (n : ℕ) : IsDec (n : ℚ) := ⟨n, 0, by simp⟩

theorem isDec_add {a b : ℚ} (ha : IsDec a) (hb : IsDec b) : IsDec (a + b) := by
  obtain ⟨x, k, rfl⟩ := ha
  obtain ⟨y, m, rfl⟩ := hb
  refine ⟨x * 10 ^ m + y * 10 ^ k, k + m, ?_⟩
  have h1 : ((10:ℚ)) ^ k ≠ 0 := by positivity
  have h2 : ((10:ℚ)) ^ m ≠ 0 := by positivity
  rw [div_add_div _ _ h1 h2, pow_add]
  push_cast
  ring

theorem isDec_mul {a b : ℚ} (ha : IsDec a) (hb : IsDec b) : IsDec (a * b) := by
  obtain ⟨x, k, rfl⟩ := ha
  obtain ⟨y, m, rfl⟩ := hb
  refine ⟨x * y, k + m, ?_⟩
  rw [div_mul_div_comm, pow_add]
  push_cast
  ring

theorem isDec_neg {a : ℚ} (ha : IsDec a) : IsDec (-a) := by
  obtain ⟨x, k, rfl⟩ := ha
  exact ⟨-x, k, by push_cast; ring⟩

theorem isDec_divPow {a : ℚ} (m : ℕ) (ha : IsDec a) : IsDec (a / (10:ℚ) ^ m) := by
  obtain ⟨x, k, rfl⟩ := ha
  refine ⟨x, k + m, ?_⟩
  rw [pow_add]
  ring

theorem isDec_zpow10 (e : ℤ) : IsDec ((10:ℚ) ^ e) := by
  rcases e with n | n
  · refine ⟨10 ^ n, 0, ?_⟩
    push_cast
    simp [zpow_natCast]
  · refine ⟨1, n + 1, ?_⟩
    rw [zpow_negSucc]
    push_cast
    ring

theorem isDec_smooth {q : ℚ} (h : IsDec q) : isSmooth25 q.den = true := by
  obtain ⟨a, k, rfl⟩ := h
  have hcast : ((a : ℚ) / (10:ℚ) ^ k) = Rat.divInt a ((10:ℕ) ^ k : ℤ) := by
    rw [Rat.divInt_eq_div]
    push_cast
    ring
  have hdvd := Rat.den_dvd a ((10:ℕ) ^ k : ℤ)
  rw [← hcast] at hdvd
  have hdvd2 : ((a : ℚ) / (10:ℚ) ^ k).den ∣ (10:ℕ) ^ k := by
    exact_mod_cast hdvd
  exact isSmooth25_of_dvd ((a / (10:ℚ) ^ k : ℚ).den_nz) hdvd2

theorem parseMant_isDec {s : Str} {q : ℚ} (h : parseMant s = some q) : IsDec q := by
  unfold parseMant at h
  rcases hsp : splitFirstP (fun c => c = '.') s with ⟨ip, ro⟩
  rw [hsp] at h
  rcases ro with _ | fp
  · simp only at h
    split at h
    · cases h
      exact isDec_natCast _
    · cases h
  · simp only at h
    split at h
    · cases h
      exact isDec_add (isDec_natCast _) (isDec_divPow _ (isDec_natCast _))
    · cases h

theorem parseUnsignedQ_isDec {s : Str} {q : ℚ} (h : parseUnsignedQ s = some q) : IsDec q := by
  unfold parseUnsignedQ at h
  rcases hsp : splitFirstP (fun c => c = 'e' ∨ c = 'E') s with ⟨ms, eo⟩
  rw [hsp] at h
  rcases eo with _ | es
  · exact parseMant_isDec h
  · simp only at h
    rcases hm : parseMant ms with _ | qm
    · rw [hm] at h
      cases h
    · rw [hm] at h
      rcases he : parseExpPart es with _ | ex
      · rw [he] at h
        cases h
      · rw [he] at h
        simp only [Option.some_inj] at h
        subst h
        exact isDec_mul (parseMant_isDec hm) (isDec_zpow10 ex)

theorem parseNum_fin_smooth {s : Str} {q : ℚ} (h : parseNum s = some (.fin q)) :
    isSmooth25 q.den = true := by
  unfold parseNum at h
  split at h
  · cases h
  · split at h
    · cases h
    · rcases s with _ | ⟨c, rest⟩
      · cases h
      · simp only at h
        split at h
        · rcases hu : parseUnsignedQ rest with _ | qu
          · rw [hu] at h
            cases h
          · rw [hu] at h
            simp at h
            subst h
            rw [Rat.neg_den]
            exact isDec_smooth (parseUnsignedQ_isDec hu)
        · rcases hu : parseUnsignedQ (c :: rest) with _ | qu
          · rw [hu] at h
            cases h
          · rw [hu] at h
            simp at h
            subst h
            exact isDec_smooth (parseUnsignedQ_isDec hu)

theorem splitChar_of_not_mem (c : Char) (a : Str) (h : ∀ x ∈ a, ¬ x = c) :
    splitChar c a = [a] := by
  induction a with
  | nil => rfl
  | cons x xs ih =>
    have hx : ¬ x = c := h x (by simp)
    have hr := ih (fun d hd => h d (by simp [hd]))
    simp [splitChar, hx, hr]

theorem splitChar_append (c : Char) (a rest : Str) (h : ∀ x ∈ a, ¬ x = c) :
    splitChar c (a ++ c :: rest) = a :: splitChar c rest := by
  induction a with
  | nil => simp [splitChar]
  | cons x xs ih =>
    have hx : ¬ x = c := h x (by simp)
    have hr := ih (fun d hd => h d (by simp [hd]))
    simp only [List.cons_append, splitChar, hx, if_false, List.append_eq, hr]

/-!
JavaScript date model.

A `Date` is represented by its UTC calendar components rather than by a
millisecond timestamp; the two are in bijection, and components are what
both the ISO printer and the parser manipulate, so no calendar arithmetic
is needed.  The host date parser (used by the missing `coerce.ts`) is
modelled from the spec, restricted to the ISO-8601 forms the codec itself
emits plus the date-only form; other host-specific formats are out of the
model and parse to null.
-/

structure DateV where
  year : Nat
  month : Nat
  day : Nat
  hour : Nat
  minute : Nat
  second : Nat
  ms : Nat
  deriving DecidableEq, Repr

def isLeapYear (y : Nat) : Bool := (y % 4 = 0 ∧ ¬ y % 100 = 0) ∨ y % 400 = 0

def daysInMonth (y m : Nat) : Nat :=
  if m = 2 then (if isLeapYear y then 29 else 28)
  else if m = 4 ∨ m = 6 ∨ m = 9 ∨ m = 11 then 30
  else 31

def validDateV (d : DateV) : Bool :=
  d.year ≤ 9999 ∧ 1 ≤ d.month ∧ d.month ≤ 12 ∧ 1 ≤ d.day
    ∧ d.day ≤ daysInMonth d.year d.month
    ∧ d.hour ≤ 23 ∧ d.minute ≤ 59 ∧ d.second ≤ 59 ∧ d.ms ≤ 999

def parseYMD (ds : Str) : Option (Nat × Nat × Nat) :=
  match splitChar '-' ds with
  | [ys, mos, dys] =>
    if ys.length = 4 ∧ mos.length = 2 ∧ dys.length = 2
        ∧ allDigits ys ∧ allDigits mos ∧ allDigits dys
    then some (valLZ ys, valLZ mos, valLZ dys) else none
  | _ => none

def parseHMS (ts : Str) : Option (Nat × Nat × Nat × Nat) :=
  match splitChar ':' ts with
  | [hs, ns, rest] =>
    match splitFirstP (fun c => c = '.') rest with
    | (ss, some tail) =>
      match splitFirstP (fun c => c = 'Z') tail with
      | (mss, some ztail) =>
        if hs.length = 2 ∧ ns.length = 2 ∧ ss.length = 2 ∧ mss.length = 3 ∧ ztail = []
            ∧ allDigits hs ∧ allDigits ns ∧ allDigits ss ∧ allDigits mss
        then some (valLZ hs, valLZ ns, valLZ ss, valLZ mss) else none
      | _ => none
    | _ => none
  | _ => none

/-- Modelled from the spec: the host date-time parser behind `coerce.ts`,
restricted to `YYYY-MM-DD` and `YYYY-MM-DDTHH:MM:SS.mmmZ`; component
ranges are validated (an out-of-range component is an Invalid Date). -/
def parseDate (s : Str) : Option DateV :=
  match splitFirstP (fun c => c = 'T') s with
  | (ds, none) =>
    match parseYMD ds with
    | some (y, mo, dy) =>
      if validDateV ⟨y, mo, dy, 0, 0, 0, 0⟩ then some ⟨y, mo, dy, 0, 0, 0, 0⟩ else none
    | none => none
  | (ds, some ts) =>
    match parseYMD ds, parseHMS ts with
    | some (y, mo, dy), some (h, mi, sec, f) =>
      if validDateV ⟨y, mo, dy, h, mi, sec, f⟩ then some ⟨y, mo, dy, h, mi, sec, f⟩
      else none
    | _, _ => none

def pad2 (n : Nat) : Str := padZeros 2 (natToDigits n)

def pad3 (n : Nat) : Str := padZeros 3 (natToDigits n)

def pad4 (n : Nat) : Str := padZeros 4 (natToDigits n)

/-- ISO-8601 printing of a date value, mirroring `Date.prototype.toISOString`. -/
def isoStr (d : DateV) : Str :=
  pad4 d.year ++ '-' :: pad2 d.month ++ '-' :: pad2 d.day
    ++ 'T' :: pad2 d.hour ++ ':' :: pad2 d.minute ++ ':' :: pad2 d.second
    ++ '.' :: pad3 d.ms ++ ['Z']

theorem allDigits_mem {s : Str} (h : allDigits s = true) {c : Char} (hc : c ∈ s) :
    c.isDigit = true := by
  simp only [allDigits, List.all_eq_true] at h
  exact h c hc

theorem isDigit_ne {c ch : Char} (h : c.isDigit = true) (hch : ch.isDigit = false) :
    ¬ c = ch := by
  intro he
  subst he
  rw [h] at hch
  cases hch

theorem daysInMonth_le (y m : Nat) : daysInMonth y m ≤ 31 := by
  unfold daysInMonth
  by_cases h2 : m = 2
  · simp only [h2, if_true]
    by_cases hl : isLeapYear y = true <;> simp [hl]
  · simp only [h2, if_false]
    by_cases h30 : m = 4 ∨ m = 6 ∨ m = 9 ∨ m = 11 <;> simp [h30]

theorem parseDate_isoStr {d : DateV} (hv : validDateV d = true) :
    parseDate (isoStr d) = some d := by
  simp only [validDateV, Bool.and_eq_true, decide_eq_true_eq] at hv
  obtain ⟨h9999, hmo1, hmo12, hd1, hdm, hh, hmi, hsec, hms⟩ := hv
  have hy4 : (pad4 d.year).length = 4 :=
    padZeros_length (natToDigits_length_le (by omega) (by omega))
  have hmo2 : (pad2 d.month).length = 2 :=
    padZeros_length (natToDigits_length_le (by omega) (by omega))
  have hdle := daysInMonth_le d.year d.month
  have hdy2 : (pad2 d.day).length = 2 :=
    padZeros_length (natToDigits_length_le (by omega) (by omega))
  have hh2 : (pad2 d.hour).length = 2 :=
    padZeros_length (natToDigits_length_le (by omega) (by omega))
  have hmi2 : (pad2 d.minute).length = 2 :=
    padZeros_length (natToDigits_length_le (by omega) (by omega))
  have hs2 : (pad2 d.second).length = 2 :=
    padZeros_length (natToDigits_length_le (by omega) (by omega))
  have hms3 : (pad3 d.ms).length = 3 :=
    padZeros_length (natToDigits_length_le (by omega) (by omega))
  have hdig4 : allDigits (pad4 d.year) = true :=
    padZeros_allDigits _ (natToDigits_allDigits _)
  have hdigmo : allDigits (pad2 d.month) = true :=
    padZeros_allDigits _ (natToDigits_allDigits _)
  have hdigdy : allDigits (pad2 d.day) = true :=
    padZeros_allDigits _ (natToDigits_allDigits _)
  have hdigh : allDigits (pad2 d.hour) = true :=
    padZeros_allDigits _ (natToDigits_allDigits _)
  have hdigmi : allDigits (pad2 d.minute) = true :=
    padZeros_allDigits _ (natToDigits_allDigits _)
  have hdigs : allDigits (pad2 d.second) = true :=
    padZeros_allDigits _ (natToDigits_allDigits _)
  have hdigms : allDigits (pad3 d.ms) = true :=
    padZeros_allDigits _ (natToDigits_allDigits _)
  have hAchars : ∀ c ∈ (pad4 d.year ++ '-' :: (pad2 d.month ++ '-' :: pad2 d.day)),
      c.isDigit = true ∨ c = '-' := by
    intro c hc
    rcases List.mem_append.1 hc with hc | hc
    · exact Or.inl (allDigits_mem hdig4 hc)
    rcases List.mem_cons.1 hc with hc | hc
    · exact Or.inr hc
    rcases List.mem_append.1 hc with hc | hc
    · exact Or.inl (allDigits_mem hdigmo hc)
    rcases List.mem_cons.1 hc with hc | hc
    · exact Or.inr hc
    · exact Or.inl (allDigits_mem hdigdy hc)
  have hiso : isoStr d
      = (pad4 d.year ++ '-' :: (pad2 d.month ++ '-' :: pad2 d.day))
        ++ 'T' :: (pad2 d.hour ++ ':' :: (pad2 d.minute
          ++ ':' :: (pad2 d.second ++ '.' :: (pad3 d.ms ++ ['Z'])))) := by
    simp [isoStr]
  unfold parseDate
  rw [hiso, splitFirstP_hit _ _ _ (fun c hc => by
      rcases hAchars c hc with h | h
      · exact decide_eq_false (isDigit_ne h (by decide))
      · exact decide_eq_false (by subst h; decide))
    _ (by decide)]
  have hymd : parseYMD (pad4 d.year ++ '-' :: (pad2 d.month ++ '-' :: pad2 d.day))
      = some (d.year, d.month, d.day) := by
    unfold parseYMD
    rw [splitChar_append '-' (pad4 d.year) _
        (fun c hc => isDigit_ne (allDigits_mem hdig4 hc) (by decide)),
      splitChar_append '-' (pad2 d.month) _
        (fun c hc => isDigit_ne (allDigits_mem hdigmo hc) (by decide)),
      splitChar_of_not_mem '-' (pad2 d.day)
        (fun c hc => isDigit_ne (allDigits_mem hdigdy hc) (by decide))]
    simp only [hy4, hmo2, hdy2, hdig4, hdigmo, hdigdy, and_true, true_and, if_true]
    simp [pad2, pad4, valLZ_padZeros, valLZ_natToDigits]
  have hhms : parseHMS (pad2 d.hour ++ ':' :: (pad2 d.minute
      ++ ':' :: (pad2 d.second ++ '.' :: (pad3 d.ms ++ ['Z']))))
      = some (d.hour, d.minute, d.second, d.ms) := by
    unfold parseHMS
    rw [splitChar_append ':' (pad2 d.hour) _
        (fun c hc => isDigit_ne (allDigits_mem hdigh hc) (by decide)),
      splitChar_append ':' (pad2 d.minute) _
        (fun c hc => isDigit_ne (allDigits_mem hdigmi hc) (by decide)),
      splitChar_of_not_mem ':' (pad2 d.second ++ '.' :: (pad3 d.ms ++ ['Z'])) (by
        intro c hc
        rcases List.mem_append.1 hc with hc | hc
        · exact isDigit_ne (allDigits_mem hdigs hc) (by decide)
        rcases List.mem_cons.1 hc with hc | hc
        · subst hc; decide
        rcases List.mem_append.1 hc with hc | hc
        · exact isDigit_ne (allDigits_mem hdigms hc) (by decide)
        · rw [List.mem_singleton.1 hc]; decide)]
    have hdot := splitFirstP_hit (fun c => decide (c = '.')) (pad2 d.second)
      (pad3 d.ms ++ ['Z'])
      (fun c hc => decide_eq_false (isDigit_ne (allDigits_mem hdigs hc) (by decide)))
      '.' (by decide)
    have hzz := splitFirstP_hit (fun c => decide (c = 'Z')) (pad3 d.ms) []
      (fun c hc => decide_eq_false (isDigit_ne (allDigits_mem hdigms hc) (by decide)))
      'Z' (by decide)
    simp only [hdot, hzz, hh2, hmi2, hs2, hms3, hdigh, hdigmi, hdigs, hdigms, and_true,
      true_and, if_true]
    simp [pad2, pad3, valLZ_padZeros, valLZ_natToDigits]
  simp only [hymd, hhms]
  have hvd : validDateV ⟨d.year, d.month, d.day, d.hour, d.minute, d.second, d.ms⟩
      = true := by
    simp only [validDateV, Bool.and_eq_true, decide_eq_true_eq]
    exact ⟨h9999, hmo1, hmo12, hd1, hdm, hh, hmi, hsec, hms⟩
  rw [if_pos hvd]

/-!
Primitive values and the coercion engine.

`stringifyPrimitive` and `isPrimitive` are embedded from
`src/lib/utils.ts`; `coercePrimitive` and `validateEnum` live in the
repository's `src/lib/coerce.ts`, which is not among the sources provided,
so they are modelled from the specification (section 4.2).
-/

inductive JSVal where
  | null
  | str (s : Str)
  | num (v : NumV)
  | boolv (b : Bool)
  | date (d : DateV)
  deriving DecidableEq, Repr

/-- Literal set of an enum tag `<v1,v2,...>`: the bracket interior split on
commas, with no escaping (spec section 6). -/
def enumLits (tag : Str) : List Str := splitChar ',' (tag.drop 1).dropLast

/-- Embedded from `isPrimitive` in src/lib/utils.ts: the four keyword tags,
or any tag that starts with `<` and ends with `>`. -/
def isPrimitive (tag : Str) : Bool :=
  tag = strOf "string" ∨ tag = strOf "number" ∨ tag = strOf "date" ∨ tag = strOf "boolean"
    ∨ (tag.head? = some '<' ∧ tag.getLast? = some '>')

def isEnumTag (tag : Str) : Bool :=
  isPrimitive tag ∧ ¬ tag = strOf "string" ∧ ¬ tag = strOf "number"
    ∧ ¬ tag = strOf "date" ∧ ¬ tag = strOf "boolean"

/-- Modelled from the spec: boolean coercion accepts case-insensitive
`true`/`1` and `false`/`0`. -/
def parseBoolStr (s : Str) : Option Bool :=
  if toLowerStr s = strOf "true" ∨ toLowerStr s = strOf "1" then some true
  else if toLowerStr s = strOf "false" ∨ toLowerStr s = strOf "0" then some false
  else none

/-- Modelled from the spec: the parse direction of the coercion engine
(`coercePrimitive` in the missing `src/lib/coerce.ts`) on a present raw
string, per the section 4.2 table; invalid input yields null. -/
def parseKind (tag : Str) (s : Str) : JSVal :=
  if tag = strOf "string" then
    if s = [] ∨ s = strOf "null" then .null else .str s
  else if tag = strOf "number" then
    match parseNum s with
    | some v => .num v
    | none => .null
  else if tag = strOf "date" then
    match parseDate s with
    | some d => .date d
    | none => .null
  else if tag = strOf "boolean" then
    match parseBoolStr s with
    | some b => .boolv b
    | none => .null
  else
    if ¬ s = [] ∧ s ∈ enumLits tag then .str s else .null

/-- Modelled from the spec: a supplied default is coerced the same way as a
raw value when the key is absent (already-typed values are validated per
kind; an invalid default degrades to null). -/
def coerceDefault (tag : Str) (v : JSVal) : JSVal :=
  if tag = strOf "string" then
    match v with
    | .str s => if s = [] ∨ s = strOf "null" then .null else .str s
    | _ => .null
  else if tag = strOf "number" then
    match v with
    | .num .nan => .null
    | .num w => .num w
    | _ => .null
  else if tag = strOf "date" then
    match v with
    | .date d => if validDateV d then .date d else .null
    | _ => .null
  else if tag = strOf "boolean" then
    match v with
    | .boolv b => .boolv b
    | _ => .null
  else
    match v with
    | .str s => if ¬ s = [] ∧ s ∈ enumLits tag then .str s else .null
    | _ => .null

/-- JavaScript truthiness of a value, used by the source's `!value` tests. -/
def jsTruthyVal : JSVal → Bool
  | .null => false
  | .str s => ¬ s = []
  | .num (.fin q) => ¬ q = 0
  | .num .nan => false
  | .num .posInf => true
  | .num .negInf => true
  | .boolv b => b
  | .date _ => true

/-- JavaScript string conversion (`String(value)` / `toString`) for the
values the codec manipulates. -/
def jsToStr : JSVal → Str
  | .null => strOf "null"
  | .str s => s
  | .num v => numToStr v
  | .boolv true => strOf "true"
  | .boolv false => strOf "false"
  | .date d => isoStr d

/-- Modelled from the spec: `validateEnum` of the missing `coerce.ts` —
case-sensitive membership of a string value in the declared literal set. -/
def validateEnum (tag : Str) (v : JSVal) : Bool :=
  match v with
  | .str s => s ∈ enumLits tag
  | _ => false

/-- Embedded from `stringifyPrimitive` in src/lib/utils.ts. -/
def stringifyPrimitive (tag : Str) (v : JSVal) : Option Str :=
  if tag = strOf "string" then
    if jsTruthyVal v then some (jsToStr v) else none
  else if tag = strOf "number" then
    match v with
    | .null => none
    | w => if jsTruthyVal w ∨ w = .num (.fin 0) then some (jsToStr w) else none
  else if tag = strOf "date" then
    match v with
    | .null => none
    | .date d => if validDateV d then some (isoStr d) else none
    | _ => none
  else if tag = strOf "boolean" then
    match v with
    | .null => none
    | w => some (if jsTruthyVal w then strOf "true" else strOf "false")
  else
    if validateEnum tag v then some (jsToStr v) else none

/-- Values a leaf of the given kind can hold after a parse (null included). -/
def validLeafVal (tag : Str) (v : JSVal) : Bool :=
  if tag = strOf "string" then
    match v with
    | .null => true
    | .str s => ¬ s = [] ∧ ¬ s = strOf "null"
    | _ => false
  else if tag = strOf "number" then
    match v with
    | .null => true
    | .num (.fin q) => isSmooth25 q.den
    | .num .posInf => true
    | .num .negInf => true
    | _ => false
  else if tag = strOf "date" then
    match v with
    | .null => true
    | .date d => validDateV d
    | _ => false
  else if tag = strOf "boolean" then
    match v with
    | .null => true
    | .boolv _ => true
    | _ => false
  else
    match v with
    | .null => true
    | .str s => ¬ s = [] ∧ s ∈ enumLits tag
    | _ => false

theorem isoStr_ne_nil (d : DateV) : isoStr d ≠ [] := by
  simp [isoStr]

theorem validLeafVal_parseKind (tag s : Str) : validLeafVal tag (parseKind tag s) = true := by
  unfold parseKind validLeafVal
  by_cases h1 : tag = strOf "string"
  · simp only [h1, if_true]
    by_cases h : s = [] ∨ s = strOf "null"
    · simp [h]
    · push_neg at h
      simp [h.1, h.2]
  · simp only [h1, if_false]
    by_cases h2 : tag = strOf "number"
    · simp only [h2, if_true]
      rcases hn : parseNum s with _ | v
      · simp
      · rcases v with q | _ | _ | _
        · simp only
          exact parseNum_fin_smooth hn
        · simp
        · simp
        · exfalso
          unfold parseNum at hn
          split at hn
          · cases hn
          · split at hn
            · cases hn
            · rcases s with _ | ⟨c, rest⟩
              · cases hn
              · simp only at hn
                split at hn <;>
                  rcases hu : parseUnsignedQ _ with _ | qu <;>
                    rw [hu] at hn <;> simp at hn
    · simp only [h2, if_false]
      by_cases h3 : tag = strOf "date"
      · simp only [h3, if_true]
        rcases hd : parseDate s with _ | dv
        · simp
        · simp only
          unfold parseDate at hd
          rcases hsp : splitFirstP (fun c => c = 'T') s with ⟨ds, ro⟩
          rw [hsp] at hd
          rcases ro with _ | ts
          · simp only at hd
            rcases hy : parseYMD ds with _ | ⟨y, mo, dy⟩
            · rw [hy] at hd
              cases hd
            · rw [hy] at hd
              simp only at hd
              split at hd
              · rename_i hvd
                cases hd
                exact hvd
              · cases hd
          · simp only at hd
            rcases hy : parseYMD ds with _ | ⟨y, mo, dy⟩
            · rw [hy] at hd
              cases hd
            · rcases hh : parseHMS ts with _ | ⟨h, mi, sec, f⟩
              · rw [hy, hh] at hd
                cases hd
              · rw [hy, hh] at hd
                simp only at hd
                split at hd
                · rename_i hvd
                  cases hd
                  exact hvd
                · cases hd
      · simp only [h3, if_false]
        by_cases h4 : tag = strOf "boolean"
        · simp only [h4, if_true]
          rcases hb : parseBoolStr s with _ | b <;> simp
        · simp only [h4, if_false]
          by_cases h : ¬ s = [] ∧ s ∈ enumLits tag <;> simp [h]

theorem stringifyPrimitive_null (tag : Str) : stringifyPrimitive tag .null = none := by
  unfold stringifyPrimitive
  by_cases h1 : tag = strOf "string"
  · simp [h1, jsTruthyVal]
  · by_cases h2 : tag = strOf "number"
    · simp [h1, h2, jsTruthyVal]
    · by_cases h3 : tag = strOf "date"
      · simp [h1, h2, h3, jsTruthyVal]
      · by_cases h4 : tag = strOf "boolean"
        · simp [h1, h2, h3, h4, jsTruthyVal]
        · simp [h1, h2, h3, h4, validateEnum, jsTruthyVal]

theorem roundKind {tag : Str} {v : JSVal} (hv : validLeafVal tag v = true)
    (hnn : ¬ v = .null) :
    ∃ s, stringifyPrimitive tag v = some s ∧ ¬ s = [] ∧ parseKind tag s = v := by
  unfold validLeafVal at hv
  unfold stringifyPrimitive parseKind
  by_cases h1 : tag = strOf "string"
  · simp only [h1, if_true] at hv ⊢
    rcases v with _ | s | nv | b | dd
    · exact absurd rfl hnn
    · simp only [Bool.and_eq_true, decide_eq_true_eq] at hv
      obtain ⟨hne, hnu⟩ := hv
      refine ⟨s, ?_, hne, ?_⟩
      · simp [jsTruthyVal, jsToStr, hne]
      · simp [hne, hnu]
    · cases hv
    · cases hv
    · cases hv
  · simp only [h1, if_false] at hv ⊢
    by_cases h2 : tag = strOf "number"
    · simp only [h2, if_true] at hv ⊢
      rcases v with _ | s | nv | b | dd
      · exact absurd rfl hnn
      · cases hv
      · rcases nv with q | _ | _ | _
        · refine ⟨printQ q, ?_, printQ_ne_nil q, ?_⟩
          · by_cases hq0 : q = 0
            · subst hq0
              simp [jsTruthyVal, jsToStr, numToStr]
            · simp [jsTruthyVal, jsToStr, numToStr, hq0]
          · rw [parseNum_printQ hv]
        · refine ⟨strOf "Infinity", by simp [jsTruthyVal, jsToStr, numToStr], by decide, ?_⟩
          rw [show parseNum (strOf "Infinity") = some .posInf from rfl]
        · refine ⟨strOf "-Infinity", by simp [jsTruthyVal, jsToStr, numToStr], by decide, ?_⟩
          rw [show parseNum (strOf "-Infinity") = some .negInf from by decide]
        · cases hv
      · cases hv
      · cases hv
    · simp only [h2, if_false] at hv ⊢
      by_cases h3 : tag = strOf "date"
      · simp only [h3, if_true] at hv ⊢
        rcases v with _ | s | nv | b | dd
        · exact absurd rfl hnn
        · cases hv
        · cases hv
        · cases hv
        · simp only at hv
          refine ⟨isoStr dd, by simp [hv], isoStr_ne_nil dd, ?_⟩
          rw [parseDate_isoStr hv]
      · simp only [h3, if_false] at hv ⊢
        by_cases h4 : tag = strOf "boolean"
        · simp only [h4, if_true] at hv ⊢
          rcases v with _ | s | nv | b | dd
          · exact absurd rfl hnn
          · cases hv
          · cases hv
          · rcases b with _ | _
            · exact ⟨strOf "false", by simp [jsTruthyVal], by decide, by decide⟩
            · exact ⟨strOf "true", by simp [jsTruthyVal], by decide, by decide⟩
          · cases hv
        · simp only [h4, if_false] at hv ⊢
          rcases v with _ | s | nv | b | dd
          · exact absurd rfl hnn
          · simp only [Bool.and_eq_true, decide_eq_true_eq] at hv
            obtain ⟨hne, hmem⟩ := hv
            refine ⟨s, ?_, hne, ?_⟩
            · simp [validateEnum, hmem, jsToStr]
            · simp [hne, hmem]
          · cases hv
          · cases hv
          · cases hv

/-!
Schemas and parsed value trees.

A schema node is a primitive type tag, a single-element array wrapper, or
an object with ordered fields (the insertion order `Object.entries`
iterates in).  Parsed value trees mirror that shape with coerced values at
the leaves; the caller-supplied default tree reuses the same type.
-/

mutual
inductive SchemaNode where
  | leaf (tag : Str)
  | arr (el : SchemaNode)
  | obj (fs : SFields)
inductive SFields where
  | nil
  | cons (name : Str) (sub : SchemaNode) (rest : SFields)
end

mutual
inductive PTree where
  | leaf (v : JSVal)
  | arr (els : PList)
  | obj (fs : PFields)
inductive PList where
  | nil
  | cons (head : PTree) (tail : PList)
inductive PFields where
  | nil
  | cons (name : Str) (val : PTree) (rest : PFields)
end

mutual
def PTree.beq : PTree → PTree → Bool
  | .leaf a, .leaf b => a == b
  | .arr a, .arr b => PList.beq a b
  | .obj a, .obj b => PFields.beq a b
  | _, _ => false
def PList.beq : PList → PList → Bool
  | .nil, .nil => true
  | .cons a as, .cons b bs => PTree.beq a b && PList.beq as bs
  | _, _ => false
def PFields.beq : PFields → PFields → Bool
  | .nil, .nil => true
  | .cons f a as, .cons g b bs => f == g && PTree.beq a b && PFields.beq as bs
  | _, _ => false
end

mutual
theorem PTree.beq_iff_eq : ∀ a b : PTree, PTree.beq a b = true ↔ a = b
  | .leaf a, .leaf b => by simp [PTree.beq]
  | .leaf _, .arr _ => by simp [PTree.beq]
  | .leaf _, .obj _ => by simp [PTree.beq]
  | .arr _, .leaf _ => by simp [PTree.beq]
  | .arr a, .arr b => by simp [PTree.beq, PList.beq_iff_list_eq a b]
  | .arr _, .obj _ => by simp [PTree.beq]
  | .obj _, .leaf _ => by simp [PTree.beq]
  | .obj _, .arr _ => by simp [PTree.beq]
  | .obj a, .obj b => by simp [PTree.beq, PFields.beq_iff_fields_eq a b]
theorem PList.beq_iff_list_eq : ∀ a b : PList, PList.beq a b = true ↔ a = b
  | .nil, .nil => by simp [PList.beq]
  | .nil, .cons _ _ => by simp [PList.beq]
  | .cons _ _, .nil => by simp [PList.beq]
  | .cons a as, .cons b bs => by
    simp [PList.beq, PTree.beq_iff_eq a b, PList.beq_iff_list_eq as bs]
theorem PFields.beq_iff_fields_eq : ∀ a b : PFields, PFields.beq a b = true ↔ a = b
  | .nil, .nil => by simp [PFields.beq]
  | .nil, .cons _ _ _ => by simp [PFields.beq]
  | .cons _ _ _, .nil => by simp [PFields.beq]
  | .cons f a as, .cons g b bs => by
    simp [PFields.beq, PTree.beq_iff_eq a b, PFields.beq_iff_fields_eq as bs, and_assoc]
end

instance : DecidableEq PTree := fun a b =>
  decidable_of_iff (PTree.beq a b = true) (PTree.beq_iff_eq a b)

instance : DecidableEq PList := fun a b =>
  decidable_of_iff (PList.beq a b = true) (PList.beq_iff_list_eq a b)

instance : DecidableEq PFields := fun a b =>
  decidable_of_iff (PFields.beq a b = true) (PFields.beq_iff_fields_eq a b)

mutual
def SchemaNode.beq : SchemaNode → SchemaNode → Bool
  | .leaf a, .leaf b => a == b
  | .arr a, .arr b => SchemaNode.beq a b
  | .obj a, .obj b => SFields.beq a b
  | _, _ => false
def SFields.beq : SFields → SFields → Bool
  | .nil, .nil => true
  | .cons f a as, .cons g b bs => f == g && SchemaNode.beq a b && SFields.beq as bs
  | _, _ => false
end

mutual
theorem SchemaNode.beq_iff_node_eq : ∀ a b : SchemaNode, SchemaNode.beq a b = true ↔ a = b
  | .leaf a, .leaf b => by simp [SchemaNode.beq]
  | .leaf _, .arr _ => by simp [SchemaNode.beq]
  | .leaf _, .obj _ => by simp [SchemaNode.beq]
  | .arr _, .leaf _ => by simp [SchemaNode.beq]
  | .arr a, .arr b => by simp [SchemaNode.beq, SchemaNode.beq_iff_node_eq a b]
  | .arr _, .obj _ => by simp [SchemaNode.beq]
  | .obj _, .leaf _ => by simp [SchemaNode.beq]
  | .obj _, .arr _ => by simp [SchemaNode.beq]
  | .obj a, .obj b => by simp [SchemaNode.beq, SFields.beq_iff_sfields_eq a b]
theorem SFields.beq_iff_sfields_eq : ∀ a b : SFields, SFields.beq a b = true ↔ a = b
  | .nil, .nil => by simp [SFields.beq]
  | .nil, .cons _ _ _ => by simp [SFields.beq]
  | .cons _ _ _, .nil => by simp [SFields.beq]
  | .cons f a as, .cons g b bs => by
    simp [SFields.beq, SchemaNode.beq_iff_node_eq a b, SFields.beq_iff_sfields_eq as bs, and_assoc]
end

instance : DecidableEq SchemaNode := fun a b =>
  decidable_of_iff (SchemaNode.beq a b = true) (SchemaNode.beq_iff_node_eq a b)

def PList.length : PList → Nat
  | .nil => 0
  | .cons _ t => t.length + 1

def PList.idx : PList → Nat → Option PTree
  | .nil, _ => none
  | .cons h _, 0 => some h
  | .cons _ t, n + 1 => t.idx n

def PFields.fget : PFields → Str → Option PTree
  | .nil, _ => none
  | .cons f t rest, g => if f = g then some t else PFields.fget rest g

def SFields.fget : SFields → Str → Option SchemaNode
  | .nil, _ => none
  | .cons f t rest, g => if f = g then some t else SFields.fget rest g

def fieldMem : Str → SFields → Bool
  | _, .nil => false
  | g, .cons f _ rest => f = g ∨ fieldMem g rest

def dotFree (s : Str) : Bool := s.all (fun c => ¬ c = '.')

mutual
/-- Well-formed schemas: leaves carry recognized primitive tags, array
elements are primitive leaves or objects (the shapes the spec data model
describes), field names are nonempty, dot-free (spec section 6 key
grammar) and unique within an object. -/
def wfNode : SchemaNode → Bool
  | .leaf tag => isPrimitive tag
  | .arr (.leaf tag) => isPrimitive tag
  | .arr (.arr _) => false
  | .arr (.obj fs) => wfFields fs
  | .obj fs => wfFields fs
def wfFields : SFields → Bool
  | .nil => true
  | .cons f sub rest =>
    (¬ f = []) ∧ dotFree f ∧ (¬ fieldMem f rest) ∧ wfNode sub ∧ wfFields rest
end

def isPrimElem : SchemaNode → Bool
  | .leaf t => isPrimitive t
  | _ => false

def elemTag : SchemaNode → Str
  | .leaf t => t
  | _ => []

/-- Modelled from the spec: the parse direction of the coercion engine in
full (`coercePrimitive` of the missing `coerce.ts`): a present raw string
is coerced per kind (never falling back to the default), an absent one is
resolved from the supplied default. -/
def coercePrimitive (tag : Str) (raw : Option Str) (dflt : Option PTree) : JSVal :=
  match raw with
  | some s => parseKind tag s
  | none =>
    match dflt with
    | some (.leaf v) => coerceDefault tag v
    | _ => .null

/-- Embedded from `parseURL` in src/lib/utils.ts: the flat parameter map is
`new Map(paths)`, whose `get` keeps the last occurrence of a key
(last-write-wins). -/
def jsMapGet (es : List (Str × Str)) (k : Str) : Option Str :=
  match es with
  | [] => none
  | e :: rest =>
    match jsMapGet rest k with
    | some v => some v
    | none => if e.1 = k then some e.2 else none

/-- Embedded from `parseURL` in src/lib/utils.ts: the
`Array.from(pathMap.keys()).some((path) => path.startsWith(arrayPath))`
probe (existence over the map's keys equals existence over the entries). -/
def probeEx (es : List (Str × Str)) (q : Str) : Bool := es.any (fun e => strPre q e.1)

def jsTruthyTree : PTree → Bool
  | .leaf v => jsTruthyVal v
  | _ => true

def jsTruthyOpt : Option PTree → Bool
  | none => false
  | some t => jsTruthyTree t

def truthyOptStr : Option Str → Bool
  | none => false
  | some s => ¬ s = []

def dfltLen : Option PTree → Nat
  | some (.arr els) => els.length
  | _ => 0

def dfltIdx : Option PTree → Nat → Option PTree
  | some (.arr els), i => els.idx i
  | _, _ => none

def dfltField : Option PTree → Str → Option PTree
  | some (.obj fs), f => fs.fget f
  | _, _ => none

/-- Path concatenation of `parseURL`:
``const newPath = currentPath ? `${currentPath}.${key}` : key``. -/
def jp (π : Str) (seg : Str) : Str := if π = [] then seg else π ++ '.' :: seg

/-- Loop-continuation test of the primitive-array branch of `parseURL`:
`if (!value && !defaultValue?.[i]) break`. -/
def condPrim (pm : List (Str × Str)) (π : Str) (d : Option PTree) (i : Nat) : Bool :=
  truthyOptStr (jsMapGet pm (jp π (natToDigits i))) ∨ jsTruthyOpt (dfltIdx d i)

/-- Loop-continuation test of the array-of-object branch of `parseURL`:
`if (!defaultValue?.[i] && !hasPaths) break`. -/
def condObj (pm : List (Str × Str)) (π : Str) (d : Option PTree) (i : Nat) : Bool :=
  jsTruthyOpt (dfltIdx d i) ∨ probeEx pm (jp π (natToDigits i))

/-- Candidate array index a map key can certify at array path `π` (used
only to bound the source's unbounded `for (let i = 0; ; i++)` scan). -/
def idxCand (π : Str) (k : Str) : Nat :=
  if π = [] then valLZ (k.takeWhile Char.isDigit)
  else if strPre (π ++ ['.']) k then valLZ ((k.drop (π.length + 1)).takeWhile Char.isDigit)
  else 0

def keyMaxIdx (π : Str) (es : List (Str × Str)) : Nat :=
  es.foldr (fun e a => max (idxCand π e.1) a) 0

/-- Fuel that provably outlasts the first index at which both the raw
value and the default are absent, making the source's unbounded index scan
a total function. -/
def arrFuel (pm : List (Str × Str)) (π : Str) (d : Option PTree) : Nat :=
  keyMaxIdx π pm + dfltLen d + 2

def parsePrimArr (pm : List (Str × Str)) (tag : Str) (π : Str) (d : Option PTree) :
    Nat → Nat → PList
  | _, 0 => .nil
  | i, f + 1 =>
    if condPrim pm π d i then
      .cons (.leaf (coercePrimitive tag (jsMapGet pm (jp π (natToDigits i))) (dfltIdx d i)))
        (parsePrimArr pm tag π d (i + 1) f)
    else .nil

def parseObjArrGo (elemParse : Str → Option PTree → PTree) (pm : List (Str × Str))
    (π : Str) (d : Option PTree) : Nat → Nat → PList
  | _, 0 => .nil
  | i, f + 1 =>
    if condObj pm π d i then
      .cons (elemParse (jp π (natToDigits i)) (dfltIdx d i))
        (parseObjArrGo elemParse pm π d (i + 1) f)
    else .nil

mutual
/-- Embedded from `parseSchemaRecursive` in src/lib/utils.ts (malformed
non-primitive leaf tags are outside `wfNode` and yield an empty object:
the source's behaviour there is the undefined-behaviour corner of spec
section 7). -/
def parseNode (pm : List (Str × Str)) : SchemaNode → Str → Option PTree → PTree
  | .leaf tag, π, d =>
    if isPrimitive tag then .leaf (coercePrimitive tag (jsMapGet pm π) d) else .obj .nil
  | .arr el, π, d =>
    if isPrimElem el then .arr (parsePrimArr pm (elemTag el) π d 0 (arrFuel pm π d))
    else .arr (parseObjArrGo (fun p2 d2 => parseNode pm el p2 d2) pm π d 0 (arrFuel pm π d))
  | .obj fs, π, d => .obj (parseFields pm fs π d)
def parseFields (pm : List (Str × Str)) : SFields → Str → Option PTree → PFields
  | .nil, _, _ => .nil
  | .cons f sub rest, π, d =>
    .cons f (parseNode pm sub (jp π f) (dfltField d f)) (parseFields pm rest π d)
end

/-- Embedded from `parseURL` in src/lib/utils.ts: parse a flat parameter
map (as an ordered entry list) against a schema with an optional default
tree. -/
def parseFlat (S : SchemaNode) (es : List (Str × Str)) (d : Option PTree) : PTree :=
  parseNode es S [] d

/-!
Serialization.

The serializer lives in the reactive layer of the repository
(`index.svelte.ts`), which is not among the provided sources, so it is
modelled from spec section 4.3: walk the schema shape against the value
tree, emit one flat key per primitive leaf (skipping leaves that
stringify to null), rebuild the dotted key paths, index array elements by
position.  Tree fields are walked in order and matched to the schema by
name, which coincides with walking the schema for the schema-shaped trees
the parser produces.
-/

def serializePrimList (tag : Str) : PList → Str → Nat → List (Str × Str)
  | .nil, _, _ => []
  | .cons t rest, π, i =>
    (match t with
      | .leaf v =>
        match stringifyPrimitive tag v with
        | some s => [(jp π (natToDigits i), s)]
        | none => []
      | _ => []) ++ serializePrimList tag rest π (i + 1)

mutual
def serializeNode : SchemaNode → PTree → Str → List (Str × Str)
  | .leaf tag, .leaf v, π =>
    match stringifyPrimitive tag v with
    | some s => [(π, s)]
    | none => []
  | .arr el, .arr els, π =>
    if isPrimElem el then serializePrimList (elemTag el) els π 0
    else serializeObjList el els π 0
  | .obj fs, .obj tfs, π => serializeFieldsGo fs tfs π
  | _, _, _ => []
def serializeObjList (el : SchemaNode) : PList → Str → Nat → List (Str × Str)
  | .nil, _, _ => []
  | .cons t rest, π, i =>
    serializeNode el t (jp π (natToDigits i)) ++ serializeObjList el rest π (i + 1)
def serializeFieldsGo : SFields → PFields → Str → List (Str × Str)
  | _, .nil, _ => []
  | fs, .cons f t rest, π =>
    (match SFields.fget fs f with
      | some sub => serializeNode sub t (jp π f)
      | none => []) ++ serializeFieldsGo fs rest π
end

def serializeTree (S : SchemaNode) (T : PTree) : List (Str × Str) := serializeNode S T []

def emitsPrimList (tag : Str) : PList → Bool
  | .nil => false
  | .cons (.leaf v) rest => (stringifyPrimitive tag v).isSome ∨ emitsPrimList tag rest
  | .cons _ rest => emitsPrimList tag rest

mutual
/-- Whether serialization of this subtree emits at least one key. -/
def emitsNode : SchemaNode → PTree → Bool
  | .leaf tag, .leaf v => (stringifyPrimitive tag v).isSome
  | .arr el, .arr els => if isPrimElem el then emitsPrimList (elemTag el) els else emitsObjList el els
  | .obj fs, .obj tfs => emitsFields fs tfs
  | _, _ => false
def emitsObjList (el : SchemaNode) : PList → Bool
  | .nil => false
  | .cons t rest => emitsNode el t ∨ emitsObjList el rest
def emitsFields : SFields → PFields → Bool
  | _, .nil => false
  | fs, .cons f t rest =>
    (match SFields.fget fs f with
      | some sub => emitsNode sub t
      | none => false) || emitsFields fs rest
end

def validPrimList (tag : Str) : PList → Bool
  | .nil => true
  | .cons (.leaf v) rest => validLeafVal tag v ∧ validPrimList tag rest
  | .cons _ _ => false

mutual
/-- Trees in the image of the parser for a given schema: shape follows the
schema (fields in schema order) and every leaf holds a value the coercion
engine can produce. -/
def validNode : SchemaNode → PTree → Bool
  | .leaf tag, .leaf v => validLeafVal tag v
  | .arr el, .arr els => if isPrimElem el then validPrimList (elemTag el) els else validObjList el els
  | .obj fs, .obj tfs => validFieldsB fs tfs
  | _, _ => false
def validObjList (el : SchemaNode) : PList → Bool
  | .nil => true
  | .cons t rest => validNode el t ∧ validObjList el rest
def validFieldsB : SFields → PFields → Bool
  | .nil, .nil => true
  | .cons f sub srest, .cons g t trest => f = g ∧ validNode sub t ∧ validFieldsB srest trest
  | _, _ => false
end

def noNullPrimList : PList → Bool
  | .nil => true
  | .cons (.leaf .null) _ => false
  | .cons _ rest => noNullPrimList rest

mutual
/-- Gap-freeness: no primitive array holds a null element and every
array-of-object element emits at least one key, so that re-parsing a
serialization does not truncate any array. -/
def gapFreeNode : SchemaNode → PTree → Bool
  | .arr el, .arr els => if isPrimElem el then noNullPrimList els else gapFreeObjList el els
  | .obj fs, .obj tfs => gapFreeFields fs tfs
  | _, _ => true
def gapFreeObjList (el : SchemaNode) : PList → Bool
  | .nil => true
  | .cons t rest => emitsNode el t ∧ gapFreeNode el t ∧ gapFreeObjList el rest
def gapFreeFields : SFields → PFields → Bool
  | _, .nil => true
  | fs, .cons f t rest =>
    (match SFields.fget fs f with
      | some sub => gapFreeNode sub t
      | none => true) && gapFreeFields fs rest
end

mutual
/-- Restriction of a tree to its non-null leaves, as the round-trip claim
words it: null array elements vanish, object fields are kept. -/
def restrictNonNull : PTree → PTree
  | .leaf v => .leaf v
  | .arr els => .arr (restrictList els)
  | .obj fs => .obj (restrictFields fs)
def restrictList : PList → PList
  | .nil => .nil
  | .cons (.leaf .null) rest => restrictList rest
  | .cons t rest => .cons (restrictNonNull t) (restrictList rest)
def restrictFields : PFields → PFields
  | .nil => .nil
  | .cons f t rest => .cons f (restrictNonNull t) (restrictFields rest)
end

theorem PList.idx_of_len_le : ∀ (els : PList) (i : Nat), els.length ≤ i → els.idx i = none
  | .nil, _, _ => rfl
  | .cons _ t, n + 1, h => PList.idx_of_len_le t n (by simpa [PList.length] using h)
  | .cons _ _, 0, h => by simp [PList.length] at h

theorem jsMapGet_mem {es : List (Str × Str)} {k v : Str} (h : jsMapGet es k = some v) :
    (k, v) ∈ es := by
  induction es with
  | nil => cases h
  | cons e rest ih =>
    unfold jsMapGet at h
    rcases hr : jsMapGet rest k with _ | w
    · rw [hr] at h
      simp only at h
      split at h
      · rename_i he
        cases h
        subst he
        exact List.mem_cons_self e rest
      · cases h
    · rw [hr] at h
      simp only [Option.some_inj] at h
      subst h
      exact List.mem_cons_of_mem _ (ih hr)

theorem strPre_takeWhile (d k : Str) (hd : allDigits d = true) (h : strPre d k = true) :
    strPre d (k.takeWhile Char.isDigit) = true := by
  induction d generalizing k with
  | nil => rfl
  | cons c cs ih =>
    cases k with
    | nil => cases h
    | cons x xs =>
      simp only [strPre, Bool.and_eq_true, decide_eq_true_eq] at h
      obtain ⟨rfl, h2⟩ := h
      simp only [allDigits, List.all_cons, Bool.and_eq_true] at hd
      have hall : allDigits cs = true := hd.2
      have htail := ih xs hall h2
      rw [List.takeWhile_cons, if_pos hd.1]
      simp [strPre, htail]

theorem append_dot_cons (π x : Str) : π ++ '.' :: x = (π ++ ['.']) ++ x := by
  simp

theorem idxCand_ge {π k : Str} (i : Nat) (h : strPre (jp π (natToDigits i)) k = true) :
    i ≤ idxCand π k := by
  by_cases hπ : π = []
  · subst hπ
    unfold jp at h
    simp only [if_true] at h
    unfold idxCand
    simp only [if_true]
    have h2 := strPre_takeWhile _ _ (natToDigits_allDigits i) h
    have := valLZ_le_of_strPre h2
    rw [valLZ_natToDigits] at this
    exact this
  · unfold jp at h
    rw [if_neg hπ, append_dot_cons] at h
    have hpre : strPre (π ++ ['.']) k = true :=
      strPre_trans (strPre_append _ _) h
    rcases (strPre_iff _ _).1 h with ⟨u, rfl⟩
    unfold idxCand
    rw [if_neg hπ, if_pos hpre]
    have hlen : (π ++ ['.']).length = π.length + 1 := by simp
    rw [List.append_assoc, ← hlen, List.drop_left]
    have h2 := strPre_takeWhile (natToDigits i) (natToDigits i ++ u)
      (natToDigits_allDigits i) (strPre_append _ _)
    have := valLZ_le_of_strPre h2
    rw [valLZ_natToDigits] at this
    exact this

theorem keyMaxIdx_ge {es : List (Str × Str)} {k v : Str} (π : Str) (h : (k, v) ∈ es) :
    idxCand π k ≤ keyMaxIdx π es := by
  induction es with
  | nil => cases h
  | cons e rest ih =>
    rcases List.mem_cons.1 h with he | he
    · have he2 : e.1 = k := by rw [← he]
      unfold keyMaxIdx
      simp only [List.foldr_cons, he2]
      omega
    · unfold keyMaxIdx at ih ⊢
      simp only [List.foldr_cons]
      have := ih he
      omega

theorem dfltIdx_of_len_le {d : Option PTree} {i : Nat} (h : dfltLen d ≤ i) :
    dfltIdx d i = none := by
  rcases d with _ | t
  · rfl
  · rcases t with v | els | fs
    · rfl
    · exact PList.idx_of_len_le els i (by simpa [dfltLen] using h)
    · rfl

theorem condPrim_fuel (pm : List (Str × Str)) (π : Str) (d : Option PTree) :
    condPrim pm π d (keyMaxIdx π pm + dfltLen d + 1) = false := by
  unfold condPrim
  have h1 : truthyOptStr (jsMapGet pm (jp π (natToDigits (keyMaxIdx π pm + dfltLen d + 1))))
      = false := by
    rcases hg : jsMapGet pm (jp π (natToDigits (keyMaxIdx π pm + dfltLen d + 1))) with _ | s
    · rfl
    · exfalso
      have hmem := jsMapGet_mem hg
      have h2 := idxCand_ge (π := π) (keyMaxIdx π pm + dfltLen d + 1) (strPre_refl _)
      have h3 := keyMaxIdx_ge π hmem
      omega
  have h2 : jsTruthyOpt (dfltIdx d (keyMaxIdx π pm + dfltLen d + 1)) = false := by
    rw [dfltIdx_of_len_le (by omega)]
    rfl
  simp [h1, h2]

theorem condObj_fuel (pm : List (Str × Str)) (π : Str) (d : Option PTree) :
    condObj pm π d (keyMaxIdx π pm + dfltLen d + 1) = false := by
  unfold condObj
  have h1 : probeEx pm (jp π (natToDigits (keyMaxIdx π pm + dfltLen d + 1))) = false := by
    rcases hp : probeEx pm (jp π (natToDigits (keyMaxIdx π pm + dfltLen d + 1))) with _ | _
    · rfl
    · exfalso
      unfold probeEx at hp
      rw [List.any_eq_true] at hp
      obtain ⟨e, hmem, hpre⟩ := hp
      have h2 := idxCand_ge (π := π) (keyMaxIdx π pm + dfltLen d + 1) hpre
      have h3 := keyMaxIdx_ge π (by exact hmem)
      omega
  have h2 : jsTruthyOpt (dfltIdx d (keyMaxIdx π pm + dfltLen d + 1)) = false := by
    rw [dfltIdx_of_len_le (by omega)]
    rfl
  simp [h1, h2]

theorem parsePrimArr_stop (pm : List (Str × Str)) (tag π : Str) (d : Option PTree) :
    ∀ f i, condPrim pm π d (i + f) = false →
      (∀ j, j < (parsePrimArr pm tag π d i (f + 1)).length → condPrim pm π d (i + j) = true)
        ∧ condPrim pm π d (i + (parsePrimArr pm tag π d i (f + 1)).length) = false := by
  intro f
  induction f with
  | zero =>
    intro i hc
    simp only [Nat.add_zero] at hc
    unfold parsePrimArr
    rw [if_neg (by simp [hc])]
    exact ⟨fun j hj => by simp [PList.length] at hj, by simpa [PList.length] using hc⟩
  | succ f ih =>
    intro i hc
    by_cases hi : condPrim pm π d i = true
    · have hc2 : condPrim pm π d ((i + 1) + f) = false := by
        rw [show (i + 1) + f = i + (f + 1) by omega]
        exact hc
      have ⟨ha, hb⟩ := ih (i + 1) hc2
      unfold parsePrimArr
      rw [if_pos hi]
      constructor
      · intro j hj
        simp only [PList.length] at hj
        match j with
        | 0 => simpa using hi
        | k + 1 =>
          rw [show i + (k + 1) = (i + 1) + k by omega]
          exact ha k (by omega)
      · simp only [PList.length]
        rw [show i + ((parsePrimArr pm tag π d (i + 1) (f + 1)).length + 1)
          = (i + 1) + (parsePrimArr pm tag π d (i + 1) (f + 1)).length by omega]
        exact hb
    · unfold parsePrimArr
      rw [if_neg hi]
      refine ⟨fun j hj => by simp [PList.length] at hj, ?_⟩
      simp only [PList.length, Nat.add_zero]
      simpa using hi

theorem parsePrimArr_idx (pm : List (Str × Str)) (tag π : Str) (d : Option PTree) :
    ∀ f i j, j < (parsePrimArr pm tag π d i f).length →
      (parsePrimArr pm tag π d i f).idx j
        = some (.leaf (coercePrimitive tag (jsMapGet pm (jp π (natToDigits (i + j))))
            (dfltIdx d (i + j)))) := by
  intro f
  induction f with
  | zero =>
    intro i j hj
    simp [parsePrimArr, PList.length] at hj
  | succ f ih =>
    intro i j hj
    unfold parsePrimArr at hj ⊢
    by_cases hi : condPrim pm π d i = true
    · rw [if_pos hi] at hj ⊢
      match j with
      | 0 => simp [PList.idx]
      | k + 1 =>
        simp only [PList.length] at hj
        simp only [PList.idx]
        rw [show i + (k + 1) = (i + 1) + k by omega]
        exact ih (i + 1) k (by omega)
    · rw [if_neg hi] at hj
      simp [PList.length] at hj

theorem parseObjArrGo_stop (ep : Str → Option PTree → PTree) (pm : List (Str × Str))
    (π : Str) (d : Option PTree) :
    ∀ f i, condObj pm π d (i + f) = false →
      (∀ j, j < (parseObjArrGo ep pm π d i (f + 1)).length → condObj pm π d (i + j) = true)
        ∧ condObj pm π d (i + (parseObjArrGo ep pm π d i (f + 1)).length) = false := by
  intro f
  induction f with
  | zero =>
    intro i hc
    simp only [Nat.add_zero] at hc
    unfold parseObjArrGo
    rw [if_neg (by simp [hc])]
    exact ⟨fun j hj => by simp [PList.length] at hj, by simpa [PList.length] using hc⟩
  | succ f ih =>
    intro i hc
    by_cases hi : condObj pm π d i = true
    · have hc2 : condObj pm π d ((i + 1) + f) = false := by
        rw [show (i + 1) + f = i + (f + 1) by omega]
        exact hc
      have ⟨ha, hb⟩ := ih (i + 1) hc2
      unfold parseObjArrGo
      rw [if_pos hi]
      constructor
      · intro j hj
        simp only [PList.length] at hj
        match j with
        | 0 => simpa using hi
        | k + 1 =>
          rw [show i + (k + 1) = (i + 1) + k by omega]
          exact ha k (by omega)
      · simp only [PList.length]
        rw [show i + ((parseObjArrGo ep pm π d (i + 1) (f + 1)).length + 1)
          = (i + 1) + (parseObjArrGo ep pm π d (i + 1) (f + 1)).length by omega]
        exact hb
    · unfold parseObjArrGo
      rw [if_neg hi]
      refine ⟨fun j hj => by simp [PList.length] at hj, ?_⟩
      simp only [PList.length, Nat.add_zero]
      simpa using hi

theorem parseObjArrGo_idx (ep : Str → Option PTree → PTree) (pm : List (Str × Str))
    (π : Str) (d : Option PTree) :
    ∀ f i j, j < (parseObjArrGo ep pm π d i f).length →
      (parseObjArrGo ep pm π d i f).idx j
        = some (ep (jp π (natToDigits (i + j))) (dfltIdx d (i + j))) := by
  intro f
  induction f with
  | zero =>
    intro i j hj
    simp [parseObjArrGo, PList.length] at hj
  | succ f ih =>
    intro i j hj
    unfold parseObjArrGo at hj ⊢
    by_cases hi : condObj pm π d i = true
    · rw [if_pos hi] at hj ⊢
      match j with
      | 0 => simp [PList.idx]
      | k + 1 =>
        simp only [PList.length] at hj
        simp only [PList.idx]
        rw [show i + (k + 1) = (i + 1) + k by omega]
        exact ih (i + 1) k (by omega)
    · rw [if_neg hi] at hj
      simp [PList.length] at hj

theorem stop_unique {cond : Nat → Bool} {a b : Nat}
    (h1a : ∀ j, j < a → cond j = true) (h1b : cond a = false)
    (h2a : ∀ j, j < b → cond j = true) (h2b : cond b = false) : a = b := by
  by_contra h
  rcases Nat.lt_or_ge a b with hl | hl
  · rw [h2a a hl] at h1b
    cases h1b
  · have hlt : b < a := by omega
    rw [h1a b hlt] at h2b
    cases h2b

theorem plist_ext : ∀ a b : PList, a.length = b.length →
    (∀ j, j < a.length → a.idx j = b.idx j) → a = b
  | .nil, .nil, _, _ => rfl
  | .nil, .cons _ _, h, _ => by simp [PList.length] at h
  | .cons _ _, .nil, h, _ => by simp [PList.length] at h
  | .cons x xs, .cons y ys, h, hidx => by
    have h0 := hidx 0 (by simp only [PList.length]; omega)
    simp only [PList.idx, Option.some_inj] at h0
    subst h0
    have htail : xs = ys := by
      apply plist_ext xs ys (by simpa [PList.length] using h)
      intro j hj
      have := hidx (j + 1) (by simp only [PList.length]; omega)
      simpa [PList.idx] using this
    rw [htail]

/-- Unfolding of the array case of `parseNode` for a primitive element,
with the fuel discharged into the contiguity characterization. -/
theorem parseNode_primArr (pm : List (Str × Str)) (tag π : Str) (d : Option PTree)
    (hp : isPrimitive tag = true) :
    ∃ els, parseNode pm (.arr (.leaf tag)) π d = .arr els
      ∧ (∀ j, j < els.length → condPrim pm π d j = true)
      ∧ condPrim pm π d els.length = false
      ∧ (∀ j, j < els.length → els.idx j
          = some (.leaf (coercePrimitive tag (jsMapGet pm (jp π (natToDigits j)))
              (dfltIdx d j)))) := by
  refine ⟨parsePrimArr pm tag π d 0 (arrFuel pm π d), ?_, ?_, ?_, ?_⟩
  · unfold parseNode
    rw [if_pos (by simp [isPrimElem, hp])]
    simp [elemTag]
  · intro j hj
    have hfuel : condPrim pm π d (0 + (keyMaxIdx π pm + dfltLen d + 1)) = false := by
      simpa using condPrim_fuel pm π d
    have := (parsePrimArr_stop pm tag π d (keyMaxIdx π pm + dfltLen d + 1) 0 hfuel).1 j
      (by simpa [arrFuel] using hj)
    simpa using this
  · have hfuel : condPrim pm π d (0 + (keyMaxIdx π pm + dfltLen d + 1)) = false := by
      simpa using condPrim_fuel pm π d
    have := (parsePrimArr_stop pm tag π d (keyMaxIdx π pm + dfltLen d + 1) 0 hfuel).2
    simpa [arrFuel] using this
  · intro j hj
    have := parsePrimArr_idx pm tag π d (arrFuel pm π d) 0 j hj
    simpa using this

/-- Embedded from `isValidPath` in src/lib/utils.ts: split the path on `.`
and walk the schema segment by segment; a remaining segment at a string
(primitive) node fails, at an array node the segment must match `^\d+$`,
at an object node it must be an existing key. -/
def isValidPathGo : List Str → SchemaNode → Bool
  | [], _ => true
  | p :: ps, n =>
    match n with
    | .leaf _ => false
    | .arr el => if ¬ p = [] ∧ allDigits p = true then isValidPathGo ps el else false
    | .obj fs =>
      match SFields.fget fs p with
      | some sub => isValidPathGo ps sub
      | none => false

def isValidPathB (path : Str) (S : SchemaNode) : Bool := isValidPathGo (splitChar '.' path) S

/-- Specification-side path resolution relation, following the words of
spec section 4.1: every segment resolves, descending through arrays on
`^\d+$` segments and through objects on existing keys, and the walk may
end at any node, leaf or container. -/
inductive Resolves : List Str → SchemaNode → Prop where
  | done (n : SchemaNode) : Resolves [] n
  | arr {p : Str} {ps : List Str} {el : SchemaNode} :
      ¬ p = [] → allDigits p = true → Resolves ps el → Resolves (p :: ps) (.arr el)
  | obj {p : Str} {ps : List Str} {fs : SFields} {sub : SchemaNode} :
      SFields.fget fs p = some sub → Resolves ps sub → Resolves (p :: ps) (.obj fs)

theorem isValidPathGo_iff : ∀ (parts : List Str) (n : SchemaNode),
    isValidPathGo parts n = true ↔ Resolves parts n := by
  intro parts
  induction parts with
  | nil =>
    intro n
    simp only [isValidPathGo]
    exact ⟨fun _ => Resolves.done n, fun _ => trivial⟩
  | cons p ps ih =>
    intro n
    cases n with
    | leaf tag =>
      simp only [isValidPathGo]
      constructor
      · intro h
        cases h
      · intro h
        cases h
    | arr el =>
      simp only [isValidPathGo]
      by_cases hp : ¬ p = [] ∧ allDigits p = true
      · rw [if_pos hp]
        constructor
        · intro h
          exact Resolves.arr hp.1 hp.2 ((ih el).1 h)
        · intro h
          cases h with
          | arr h1 h2 h3 => exact (ih el).2 h3
      · rw [if_neg hp]
        constructor
        · intro h
          cases h
        · intro h
          cases h with
          | arr h1 h2 h3 => exact absurd ⟨h1, h2⟩ hp
    | obj fs =>
      simp only [isValidPathGo]
      rcases hf : SFields.fget fs p with _ | sub
      · constructor
        · intro h
          cases h
        · intro h
          cases h with
          | obj h1 h2 =>
            rename_i sub2
            rw [hf] at h1
            cases h1
      · constructor
        · intro h
          exact Resolves.obj hf ((ih sub).1 h)
        · intro h
          cases h with
          | obj h1 h2 =>
            rename_i sub2
            rw [hf] at h1
            cases h1
            exact (ih sub).2 h2

/-- First value bound to `k`, scanning from the front. -/
def findFirst (es : List (Str × Str)) (k : Str) : Option Str :=
  match es with
  | [] => none
  | e :: rest => if e.1 = k then some e.2 else findFirst rest k

theorem findFirst_append (a b : List (Str × Str)) (k : Str) :
    findFirst (a ++ b) k
      = match findFirst a k with
        | some v => some v
        | none => findFirst b k := by
  induction a with
  | nil => simp [findFirst]
  | cons e rest ih =>
    by_cases he : e.1 = k
    · simp [findFirst, he]
    · simp [findFirst, he, ih]

theorem jsMapGet_eq_lastOccurrence (es : List (Str × Str)) (k : Str) :
    jsMapGet es k = findFirst es.reverse k := by
  induction es with
  | nil => rfl
  | cons e rest ih =>
    unfold jsMapGet
    rw [List.reverse_cons, findFirst_append, ← ih]
    rcases h : jsMapGet rest k with _ | v
    · simp [findFirst]
    · simp [findFirst]

/-!
Debounce model.

The source returns a closure; invoking it either does nothing at all
(`delay === false` returns `() => {}`) or clears the pending timeout and
schedules a new one — in no case is `fn` called synchronously.  The state
is the pending timeout delay; the boolean reports whether `fn` was
executed during the invocation.
-/

inductive DebClosure where
  | noop
  | sched (ms : Nat)
  deriving DecidableEq, Repr

/-- Embedded from `debounce` in src/lib/utils.ts; `none` models
`delay === false`. -/
def debounce (delay : Option Nat) : DebClosure :=
  match delay with
  | none => .noop
  | some ms => .sched ms

/-- Effect of invoking the returned closure on the pending-timeout state;
the boolean is whether `fn` ran synchronously during the call. -/
def invokeEffect : DebClosure → Option Nat → Option Nat × Bool
  | .noop, pending => (pending, false)
  | .sched ms, _ => (some ms, false)

/-!
Input normalization (`getSearchParams` in src/lib/utils.ts).

A string input is passed to the host `new URL(string)` constructor, which
throws a `TypeError` unless the string is an absolute URL (it must start
with a scheme); that host behaviour is modelled by `hasScheme`.  Query
extraction models `URLSearchParams` iteration on the substring between
`?` and `#` (percent-decoding is not modelled; it is irrelevant to the
claims).
-/

inductive URLInput where
  | rawStr (s : Str)
  | urlObj (query : List (Str × Str))
  | multimap (es : List (Str × Str))

def schemeChar (c : Char) : Bool := c.isAlphanum ∨ c = '+' ∨ c = '-' ∨ c = '.'

def hasScheme (s : Str) : Bool :=
  match s with
  | [] => false
  | c :: _ =>
    c.isAlpha ∧ (s.takeWhile (fun x => ¬ x = ':')).all schemeChar = true
      ∧ ¬ (s.dropWhile (fun x => ¬ x = ':')) = []

def parseQueryStr (s : Str) : List (Str × Str) :=
  (splitChar '&' (((s.dropWhile (fun c => ¬ c = '?')).drop 1).takeWhile (fun c => ¬ c = '#'))).filterMap
    (fun seg =>
      if seg = [] then none
      else
        let r := splitFirstP (fun c => c = '=') seg
        some (r.1, (r.2).getD []))

def getSearchParams : URLInput → Except Unit (List (Str × Str))
  | .rawStr s => if hasScheme s then .ok (parseQueryStr s) else .error ()
  | .urlObj q => .ok q
  | .multimap es => .ok es

def exOk : Except Unit PTree → Bool
  | .ok _ => true
  | .error _ => false

/-- Embedded from `parseURL` in src/lib/utils.ts, composed with the input
normalization; the error case models the `TypeError` thrown by `new URL`. -/
def parseURLTop (input : URLInput) (S : SchemaNode) (d : Option PTree) : Except Unit PTree :=
  match getSearchParams input with
  | .ok es => .ok (parseFlat S es d)
  | .error e => .error e

/-!
Concrete schemas and parameter maps used by witnesses and counterexamples.
-/

def cTagNum : Str := strOf "number"
def cTagStr : Str := strOf "string"
def cKid : Str := strOf "id"
def cKtags : Str := strOf "tags"
def cSchemaId : SchemaNode := .obj (.cons cKid (.leaf cTagNum) .nil)
def cSchemaTags : SchemaNode := .obj (.cons cKtags (.arr (.leaf cTagStr)) .nil)
def cSchemaItems : SchemaNode :=
  .obj (.cons (strOf "items") (.arr (.obj (.cons (strOf "a") (.leaf cTagStr) .nil))) .nil)
def cexMap1 : List (Str × Str) := [(strOf "tags.0", strOf "null"), (strOf "tags.1", strOf "b")]
def cexMap2 : List (Str × Str) := [(strOf "tags.0", []), (strOf "tags.1", strOf "b")]

/-- C9: `isValidPath` splits the path on `.` and walks the schema segment
by segment — at an array node the segment must match `^\d+$` and
resolution descends into the element schema, at an object node the segment
must be an existing key, any segment beyond a primitive leaf is rejected —
and it returns `true` exactly when every segment resolves, whether the
walk ends at a leaf or at a container node. -/
theorem claim9_isValidPath (path : Str) (S : SchemaNode) :
    isValidPathB path S = true ↔ Resolves (splitChar '.' path) S :=
  isValidPathGo_iff (splitChar '.' path) S

/-- Closed instance of the C9 equivalence at a concrete path and schema. -/
theorem claim9_witness :
    isValidPathB (strOf "tags.0") cSchemaTags = true
    ∧ isValidPathB (strOf "tags.x") cSchemaTags = false := by
  constructor
  · exact (claim9_isValidPath (strOf "tags.0") cSchemaTags).2
      (Resolves.obj (by decide) (Resolves.arr (by decide) (by decide)
        (Resolves.done (.leaf cTagStr))))
  · by_contra h
    have h2 : isValidPathB (strOf "tags.x") cSchemaTags = true := by
      revert h
      cases isValidPathB (strOf "tags.x") cSchemaTags
      · intro h
        exact absurd rfl h
      · intro h
        rfl
    have h3 := (claim9_isValidPath (strOf "tags.x") cSchemaTags).1 h2
    have hsplit : splitChar '.' (strOf "tags.x") = [strOf "tags", strOf "x"] := by decide
    rw [hsplit] at h3
    cases h3 with
    | obj h1 h2 =>
      rw [show SFields.fget (.cons cKtags (.arr (.leaf cTagStr)) .nil) (strOf "tags")
          = some (.arr (.leaf cTagStr)) from by decide] at h1
      cases h1
      cases h2 with
      | arr ha hb hc => exact absurd hb (by decide)

/-- C7: the flat parameter map is `new Map(paths)`, so multiple values for
the same textual key collapse to the last occurrence in iteration order
(the lookup equals the first hit when scanning the entries in reverse);
concretely, `id=42` then `id=43` with schema `{id:'number'}` parses to
`{id: 43}`. -/
theorem claim7_last_write_wins :
    (∀ (es : List (Str × Str)) (k : Str), jsMapGet es k = findFirst es.reverse k)
    ∧ parseFlat cSchemaId [(cKid, strOf "42"), (cKid, strOf "43")] none
        = .obj (.cons cKid (.leaf (.num (.fin 43))) .nil) := by
  constructor
  · exact fun es k => jsMapGet_eq_lastOccurrence es k
  · decide

/-- C8: CODE BUG — contrary to the claim (and to the comment inside
`debounce` itself), `debounce(fn, false)` returns the no-op closure
`() => {}`: invoking the returned function never executes `fn`, neither
synchronously nor later, and schedules nothing. -/
theorem claim8_debounce_false_bug :
    debounce none = .noop
    ∧ ∀ pending, invokeEffect (debounce none) pending = (pending, false) :=
  ⟨rfl, fun _ => rfl⟩

/-- C5 (amended): input normalization accepts a URL-like object or an
already-parsed key-value multimap without ever raising, but a raw string
input is handed to the host `new URL(string)` constructor, which throws a
`TypeError` unless the string is an absolute URL carrying a scheme — a
bare query string such as `id=42` raises instead of degrading to null. -/
theorem claim5_inputs_amended :
    (∀ (q : List (Str × Str)) (S : SchemaNode) (d : Option PTree),
      exOk (parseURLTop (.urlObj q) S d) = true)
    ∧ (∀ (es : List (Str × Str)) (S : SchemaNode) (d : Option PTree),
      exOk (parseURLTop (.multimap es) S d) = true)
    ∧ (∀ (s : Str) (S : SchemaNode) (d : Option PTree), hasScheme s = true →
      exOk (parseURLTop (.rawStr s) S d) = true)
    ∧ (∀ (s : Str) (S : SchemaNode) (d : Option PTree), hasScheme s = false →
      parseURLTop (.rawStr s) S d = .error ()) := by
  refine ⟨fun q S d => rfl, fun es S d => rfl, ?_, ?_⟩
  · intro s S d h
    simp [parseURLTop, getSearchParams, h, exOk]
  · intro s S d h
    simp [parseURLTop, getSearchParams, h]

/-- Closed instance of C5: a URL-like object and a genuine absolute URL
string both normalize successfully. -/
theorem claim5_witness :
    exOk (parseURLTop (.urlObj [(cKid, strOf "42")]) cSchemaId none) = true
    ∧ exOk (parseURLTop (.rawStr (strOf "https://x.test/?id=42")) cSchemaId none) = true :=
  ⟨claim5_inputs_amended.1 [(cKid, strOf "42")] cSchemaId none,
    claim5_inputs_amended.2.2.1 (strOf "https://x.test/?id=42") cSchemaId none (by decide)⟩

/-- Counterexample to C5 as stated: the bare query string `id=42` is one of
the claimed accepted input forms, yet `new URL("id=42")` throws, so parseURL
raises instead of returning a tree. -/
theorem claim5_counterexample :
    parseURLTop (.rawStr (strOf "id=42")) cSchemaId none = .error () := by
  rfl

/-- C6: for an enum leaf with declared literal set S, both codec directions
preserve membership-or-null — parsing a raw string yields a member of S or
null, a raw string outside S (case-sensitively) parses to null even when a
default is supplied, and stringifying any value that is not a member of S
yields null (no default, no nearest match). -/
theorem claim6_enum_invariant (tag : Str) (h : isEnumTag tag = true) :
    (∀ (raw : Str) (d : Option PTree),
      coercePrimitive tag (some raw) d = .null
        ∨ ∃ s, coercePrimitive tag (some raw) d = .str s ∧ s ∈ enumLits tag)
    ∧ (∀ (raw : Str) (d : Option PTree), ¬ raw ∈ enumLits tag →
      coercePrimitive tag (some raw) d = .null)
    ∧ (∀ v : JSVal, validateEnum tag v = false → stringifyPrimitive tag v = none)
    ∧ (∀ s : Str, ¬ s ∈ enumLits tag → stringifyPrimitive tag (.str s) = none) := by
  simp only [isEnumTag, decide_eq_true_eq] at h
  obtain ⟨hp, hs, hn, hd, hb⟩ := h
  have hparse : ∀ raw : Str, parseKind tag raw
      = if ¬ raw = [] ∧ raw ∈ enumLits tag then .str raw else .null := by
    intro raw
    unfold parseKind
    rw [if_neg hs, if_neg hn, if_neg hd, if_neg hb]
  have hstr : ∀ v : JSVal, stringifyPrimitive tag v
      = if validateEnum tag v then some (jsToStr v) else none := by
    intro v
    unfold stringifyPrimitive
    rw [if_neg hs, if_neg hn, if_neg hd, if_neg hb]
  refine ⟨?_, ?_, ?_, ?_⟩
  · intro raw d
    show parseKind tag raw = .null
      ∨ ∃ s, parseKind tag raw = .str s ∧ s ∈ enumLits tag
    rw [hparse raw]
    by_cases hc : ¬ raw = [] ∧ raw ∈ enumLits tag
    · exact Or.inr ⟨raw, by rw [if_pos hc], hc.2⟩
    · exact Or.inl (by rw [if_neg hc])
  · intro raw d hmem
    show parseKind tag raw = .null
    rw [hparse raw, if_neg (fun hc => hmem hc.2)]
  · intro v hv
    rw [hstr v, hv]
    rfl
  · intro s hmem
    have hv : validateEnum tag (.str s) = false := by
      simp [validateEnum, hmem]
    rw [hstr (.str s), hv]
    rfl

/-- Closed instance of C6 at the enum tag `<a,b>`: the non-member `c`
parses to null (despite a supplied default) and stringifies to null. -/
theorem claim6_witness :
    coercePrimitive (strOf "<a,b>") (some (strOf "c")) (some (.leaf (.str (strOf "a")))) = .null
    ∧ stringifyPrimitive (strOf "<a,b>") (.str (strOf "c")) = none := by
  have h := claim6_enum_invariant (strOf "<a,b>") (by decide)
  exact ⟨h.2.1 (strOf "c") (some (.leaf (.str (strOf "a")))) (by decide),
    h.2.2.2 (strOf "c") (by decide)⟩

/-- C3: a primitive leaf applies its default only on absence — if the key
is absent from the flat map the leaf is the coerced default, and if the
key is present the leaf is the coercion of the raw value alone, the
supplied default never being consulted (so a present-but-invalid raw value
resolves to null, not to the default). -/
theorem claim3_default_only_on_absence (tag π : Str) (pm : List (Str × Str)) (d0 : JSVal)
    (hp : isPrimitive tag = true) :
    (jsMapGet pm π = none →
      parseNode pm (.leaf tag) π (some (.leaf d0)) = .leaf (coerceDefault tag d0))
    ∧ (∀ s, jsMapGet pm π = some s →
      parseNode pm (.leaf tag) π (some (.leaf d0)) = .leaf (parseKind tag s)) := by
  constructor
  · intro habs
    unfold parseNode
    rw [if_pos hp]
    unfold coercePrimitive
    rw [habs]
  · intro s hpres
    unfold parseNode
    rw [if_pos hp]
    unfold coercePrimitive
    rw [hpres]

/-- Closed instance of C3 with schema `{id:'number'}` and default `{id:5}`:
a missing key yields 5, a present-but-invalid `id=abc` yields null. -/
theorem claim3_witness :
    parseNode [] (.leaf (strOf "number")) (strOf "id") (some (.leaf (.num (.fin 5))))
      = .leaf (.num (.fin 5))
    ∧ parseNode [(strOf "id", strOf "abc")] (.leaf (strOf "number")) (strOf "id")
        (some (.leaf (.num (.fin 5)))) = .leaf .null := by
  constructor
  · have h := (claim3_default_only_on_absence (strOf "number") (strOf "id") []
      (.num (.fin 5)) (by decide)).1 (by decide)
    rw [h]
    decide
  · have h := (claim3_default_only_on_absence (strOf "number") (strOf "id")
      [(strOf "id", strOf "abc")] (.num (.fin 5)) (by decide)).2 (strOf "abc") (by decide)
    rw [h]
    decide

/-- C10: the primitive-array scan halts on a falsy raw value, not only on
an absent key — if `f.0` is bound to the empty string and no default is
supplied, the field parses to the empty array regardless of what is bound
at `f.1`, `f.2`, and beyond. -/
theorem claim10_empty_string_halts (tag π : Str) (pm : List (Str × Str))
    (hp : isPrimitive tag = true)
    (h0 : jsMapGet pm (jp π (natToDigits 0)) = some []) :
    parseNode pm (.arr (.leaf tag)) π none = .arr .nil := by
  obtain ⟨els, heq, hlt, hstop, hidx⟩ := parseNode_primArr pm tag π none hp
  have hlen : els.length = 0 := by
    by_contra hne
    have h1 : 0 < els.length := Nat.pos_of_ne_zero hne
    have h2 := hlt 0 h1
    simp [condPrim, h0, truthyOptStr, dfltIdx, jsTruthyOpt] at h2
  rw [heq]
  cases els with
  | nil => rfl
  | cons a r => exact absurd hlen (by simp only [PList.length]; omega)

/-- Closed instance of C10: `tags.0` bound to the empty string with
`tags.1=x` present still yields the empty array. -/
theorem claim10_witness :
    parseNode [(strOf "tags.0", []), (strOf "tags.1", strOf "x")]
      (.arr (.leaf (strOf "string"))) (strOf "tags") none = .arr .nil :=
  claim10_empty_string_halts (strOf "string") (strOf "tags")
    [(strOf "tags.0", []), (strOf "tags.1", strOf "x")] (by decide) (by decide)

/-- C2 (amended): the element sequence of a primitive-array field has
length the number of contiguous indices at which the raw value is a
truthy (nonempty) string or the default at that index is truthy; the scan
stops at the first index where the raw value is falsy (absent **or**
empty) and the default is falsy too, and each produced element is the
coercion of the raw value and per-index default. -/
theorem claim2_array_length_amended (tag π : Str) (pm : List (Str × Str)) (d : Option PTree)
    (hp : isPrimitive tag = true) :
    ∃ els, parseNode pm (.arr (.leaf tag)) π d = .arr els
      ∧ (∀ j, j < els.length →
          truthyOptStr (jsMapGet pm (jp π (natToDigits j))) = true
            ∨ jsTruthyOpt (dfltIdx d j) = true)
      ∧ truthyOptStr (jsMapGet pm (jp π (natToDigits els.length))) = false
      ∧ jsTruthyOpt (dfltIdx d els.length) = false
      ∧ (∀ j, j < els.length → els.idx j
          = some (.leaf (coercePrimitive tag (jsMapGet pm (jp π (natToDigits j)))
              (dfltIdx d j)))) := by
  obtain ⟨els, heq, hlt, hstop, hidx⟩ := parseNode_primArr pm tag π d hp
  refine ⟨els, heq, ?_, ?_, ?_, hidx⟩
  · intro j hj
    have h := hlt j hj
    simpa [condPrim] using h
  · have h := hstop
    simp only [condPrim, decide_eq_false_iff_not, not_or, Bool.not_eq_true] at h
    exact h.1
  · have h := hstop
    simp only [condPrim, decide_eq_false_iff_not, not_or, Bool.not_eq_true] at h
    exact h.2

/-- Closed instance of the C2 characterization: with `tags.0=a` and
`tags.2=c` (no `tags.1`) the scan produces some sequence and the raw value
at the halting index is falsy. -/
theorem claim2_witness :
    ∃ els, parseNode [(strOf "tags.0", strOf "a"), (strOf "tags.2", strOf "c")]
        (.arr (.leaf (strOf "string"))) (strOf "tags") none = .arr els
      ∧ truthyOptStr (jsMapGet [(strOf "tags.0", strOf "a"), (strOf "tags.2", strOf "c")]
          (jp (strOf "tags") (natToDigits els.length))) = false := by
  obtain ⟨els, h1, h2, h3, h4, h5⟩ := claim2_array_length_amended (strOf "string")
    (strOf "tags") [(strOf "tags.0", strOf "a"), (strOf "tags.2", strOf "c")] none (by decide)
  exact ⟨els, h1, h3⟩

/-- Counterexample to C2 as stated: raw values exist at the contiguous
indices 0 and 1 (so the claim predicts length 2), yet because the value at
index 0 is the empty string — present but falsy — the parse yields the
empty array. -/
theorem claim2_counterexample :
    (jsMapGet cexMap2 (strOf "tags.0")).isSome = true
    ∧ (jsMapGet cexMap2 (strOf "tags.1")).isSome = true
    ∧ parseNode cexMap2 (.arr (.leaf (strOf "string"))) (strOf "tags") none = .arr .nil := by
  refine ⟨rfl, rfl, ?_⟩
  decide

/-- Counterexample to C1 as stated: from `tags.0=null`, `tags.1=b` the
parse is `[null, b]`, whose restriction to non-null leaves is `[b]` — but
serializing omits the `tags.0` key, so the re-parse halts at index 0 and
returns the empty array, losing the non-null leaf `b`. -/
theorem claim1_counterexample :
    parseFlat cSchemaTags cexMap1 none
      = .obj (.cons cKtags
          (.arr (.cons (.leaf .null) (.cons (.leaf (.str (strOf "b"))) .nil))) .nil)
    ∧ restrictNonNull (parseFlat cSchemaTags cexMap1 none)
      = .obj (.cons cKtags (.arr (.cons (.leaf (.str (strOf "b"))) .nil)) .nil)
    ∧ parseFlat cSchemaTags
        (serializeTree cSchemaTags (parseFlat cSchemaTags cexMap1 none)) none
      = .obj (.cons cKtags (.arr .nil) .nil) := by
  refine ⟨by decide, by decide, ?_⟩
  decide

/-- Counterexample to C4 as stated: the key `items.0extra` is not
resolvable by any schema path of `{items:[{a:'string'}]}`, yet adding it
to the empty flat map changes the output — the `startsWith` probe sees it
as evidence for element 0, materializing `{a:null}`. -/
theorem claim4_counterexample :
    isValidPathB (strOf "items.0extra") cSchemaItems = false
    ∧ parseFlat cSchemaItems [] none = .obj (.cons (strOf "items") (.arr .nil) .nil)
    ∧ parseFlat cSchemaItems [(strOf "items.0extra", strOf "x")] none
      = .obj (.cons (strOf "items")
          (.arr (.cons (.obj (.cons (strOf "a") (.leaf .null) .nil)) .nil)) .nil) := by
  refine ⟨by decide, by decide, ?_⟩
  decide

/-- Unfolding of the array case of `parseNode` for an object element, with
the fuel discharged into the contiguity characterization. -/
theorem parseNode_objArr (pm : List (Str × Str)) (el : SchemaNode) (π : Str) (d : Option PTree)
    (hp : isPrimElem el = false) :
    ∃ els, parseNode pm (.arr el) π d = .arr els
      ∧ (∀ j, j < els.length → condObj pm π d j = true)
      ∧ condObj pm π d els.length = false
      ∧ (∀ j, j < els.length → els.idx j
          = some (parseNode pm el (jp π (natToDigits j)) (dfltIdx d j))) := by
  refine ⟨parseObjArrGo (fun p2 d2 => parseNode pm el p2 d2) pm π d 0 (arrFuel pm π d),
    ?_, ?_, ?_, ?_⟩
  · cases el with
    | leaf tag =>
      unfold parseNode
      rw [if_neg (by simp [hp])]
      rfl
    | arr el2 =>
      unfold parseNode
      rw [if_neg (by simp [isPrimElem])]
      rfl
    | obj fs =>
      unfold parseNode
      rw [if_neg (by simp [isPrimElem])]
      rfl
  · intro j hj
    have hfuel : condObj pm π d (0 + (keyMaxIdx π pm + dfltLen d + 1)) = false := by
      simpa using condObj_fuel pm π d
    have h := (parseObjArrGo_stop (fun p2 d2 => parseNode pm el p2 d2) pm π d
      (keyMaxIdx π pm + dfltLen d + 1) 0 hfuel).1 j (by simpa [arrFuel] using hj)
    simpa using h
  · have hfuel : condObj pm π d (0 + (keyMaxIdx π pm + dfltLen d + 1)) = false := by
      simpa using condObj_fuel pm π d
    have h := (parseObjArrGo_stop (fun p2 d2 => parseNode pm el p2 d2) pm π d
      (keyMaxIdx π pm + dfltLen d + 1) 0 hfuel).2
    simpa [arrFuel] using h
  · intro j hj
    have h := parseObjArrGo_idx (fun p2 d2 => parseNode pm el p2 d2) pm π d
      (arrFuel pm π d) 0 j hj
    simpa using h

/-!
Touched paths: the exact keys the parser reads (`Touch`) and the prefixes
it feeds to the `startsWith` probe (`Probe`), determined by schema and
current path alone.  The parse result depends on the flat map only
through lookups at touched keys and probes at probed prefixes.
-/

mutual
inductive Touch : SchemaNode → Str → Str → Prop where
  | leaf {tag : Str} {π : Str} : isPrimitive tag = true → Touch (.leaf tag) π π
  | arrPrim {el : SchemaNode} {π : Str} (i : Nat) :
      isPrimElem el = true → Touch (.arr el) π (jp π (natToDigits i))
  | arrObj {el : SchemaNode} {π k : Str} (i : Nat) :
      isPrimElem el = false → Touch el (jp π (natToDigits i)) k → Touch (.arr el) π k
  | obj {fs : SFields} {π k : Str} : TouchF fs π k → Touch (.obj fs) π k
inductive TouchF : SFields → Str → Str → Prop where
  | head {f : Str} {sub : SchemaNode} {rest : SFields} {π k : Str} :
      Touch sub (jp π f) k → TouchF (.cons f sub rest) π k
  | tail {f : Str} {sub : SchemaNode} {rest : SFields} {π k : Str} :
      TouchF rest π k → TouchF (.cons f sub rest) π k
end

mutual
inductive Probe : SchemaNode → Str → Str → Prop where
  | arr {el : SchemaNode} {π : Str} (i : Nat) :
      isPrimElem el = false → Probe (.arr el) π (jp π (natToDigits i))
  | arrRec {el : SchemaNode} {π q : Str} (i : Nat) :
      isPrimElem el = false → Probe el (jp π (natToDigits i)) q → Probe (.arr el) π q
  | obj {fs : SFields} {π q : Str} : ProbeF fs π q → Probe (.obj fs) π q
inductive ProbeF : SFields → Str → Str → Prop where
  | head {f : Str} {sub : SchemaNode} {rest : SFields} {π q : Str} :
      Probe sub (jp π f) q → ProbeF (.cons f sub rest) π q
  | tail {f : Str} {sub : SchemaNode} {rest : SFields} {π q : Str} :
      ProbeF rest π q → ProbeF (.cons f sub rest) π q
end

theorem Touch_leaf_eq {tag π k : Str} (h : Touch (.leaf tag) π k) : k = π := by
  cases h
  rfl

theorem Touch_obj_inv {fs : SFields} {π k : Str} (h : Touch (.obj fs) π k) : TouchF fs π k := by
  cases h
  assumption

theorem TouchF_nil {π k : Str} (h : TouchF .nil π k) : False := by
  cases h

theorem TouchF_cons_inv {f : Str} {sub : SchemaNode} {rest : SFields} {π k : Str}
    (h : TouchF (.cons f sub rest) π k) : Touch sub (jp π f) k ∨ TouchF rest π k := by
  cases h with
  | head h2 => exact Or.inl h2
  | tail h2 => exact Or.inr h2

theorem Probe_leaf {tag π q : Str} (h : Probe (.leaf tag) π q) : False := by
  cases h

theorem Probe_obj_inv {fs : SFields} {π q : Str} (h : Probe (.obj fs) π q) : ProbeF fs π q := by
  cases h
  assumption

theorem ProbeF_nil {π q : Str} (h : ProbeF .nil π q) : False := by
  cases h

theorem ProbeF_cons_inv {f : Str} {sub : SchemaNode} {rest : SFields} {π q : Str}
    (h : ProbeF (.cons f sub rest) π q) : Probe sub (jp π f) q ∨ ProbeF rest π q := by
  cases h with
  | head h2 => exact Or.inl h2
  | tail h2 => exact Or.inr h2

mutual
/-- The parse of a subtree depends on the flat map only through lookups at
touched keys and probes at probed prefixes. -/
theorem parse_agree_node (S : SchemaNode) (π : Str) (d : Option PTree)
    (pm1 pm2 : List (Str × Str))
    (hg : ∀ k, Touch S π k → jsMapGet pm1 k = jsMapGet pm2 k)
    (hq : ∀ q, Probe S π q → probeEx pm1 q = probeEx pm2 q) :
    parseNode pm1 S π d = parseNode pm2 S π d := by
  cases S with
  | leaf tag =>
    unfold parseNode
    by_cases hp : isPrimitive tag = true
    · rw [if_pos hp, if_pos hp, hg π (Touch.leaf hp)]
    · rw [if_neg hp, if_neg hp]
  | arr el =>
    by_cases hp : isPrimElem el = true
    · cases el with
      | leaf tag =>
        have hptag : isPrimitive tag = true := by simpa [isPrimElem] using hp
        obtain ⟨els1, he1, ha1, hb1, hi1⟩ := parseNode_primArr pm1 tag π d hptag
        obtain ⟨els2, he2, ha2, hb2, hi2⟩ := parseNode_primArr pm2 tag π d hptag
        rw [he1, he2]
        have hcond : ∀ i, condPrim pm1 π d i = condPrim pm2 π d i := by
          intro i
          unfold condPrim
          rw [hg (jp π (natToDigits i)) (Touch.arrPrim i hp)]
        have hlen : els1.length = els2.length :=
          stop_unique ha1 hb1 (fun j hj => by rw [hcond j]; exact ha2 j hj)
            (by rw [hcond els2.length]; exact hb2)
        congr 1
        apply plist_ext els1 els2 hlen
        intro j hj
        rw [hi1 j hj, hi2 j (hlen ▸ hj), hg (jp π (natToDigits j)) (Touch.arrPrim j hp)]
      | arr el2 => simp [isPrimElem] at hp
      | obj fs2 => simp [isPrimElem] at hp
    · have hpf : isPrimElem el = false := by
        cases hval : isPrimElem el
        · rfl
        · exact absurd hval hp
      obtain ⟨els1, he1, ha1, hb1, hi1⟩ := parseNode_objArr pm1 el π d hpf
      obtain ⟨els2, he2, ha2, hb2, hi2⟩ := parseNode_objArr pm2 el π d hpf
      rw [he1, he2]
      have hcond : ∀ i, condObj pm1 π d i = condObj pm2 π d i := by
        intro i
        unfold condObj
        rw [hq (jp π (natToDigits i)) (Probe.arr i hpf)]
      have hlen : els1.length = els2.length :=
        stop_unique ha1 hb1 (fun j hj => by rw [hcond j]; exact ha2 j hj)
          (by rw [hcond els2.length]; exact hb2)
      congr 1
      apply plist_ext els1 els2 hlen
      intro j hj
      rw [hi1 j hj, hi2 j (hlen ▸ hj),
        parse_agree_node el (jp π (natToDigits j)) (dfltIdx d j) pm1 pm2
          (fun k hk => hg k (Touch.arrObj j hpf hk))
          (fun q hqq => hq q (Probe.arrRec j hpf hqq))]
  | obj fs =>
    unfold parseNode
    rw [parse_agree_fields fs π d pm1 pm2
      (fun k hk => hg k (Touch.obj hk))
      (fun q hqq => hq q (Probe.obj hqq))]
theorem parse_agree_fields (fs : SFields) (π : Str) (d : Option PTree)
    (pm1 pm2 : List (Str × Str))
    (hg : ∀ k, TouchF fs π k → jsMapGet pm1 k = jsMapGet pm2 k)
    (hq : ∀ q, ProbeF fs π q → probeEx pm1 q = probeEx pm2 q) :
    parseFields pm1 fs π d = parseFields pm2 fs π d := by
  cases fs with
  | nil => rfl
  | cons f sub rest =>
    unfold parseFields
    rw [parse_agree_node sub (jp π f) (dfltField d f) pm1 pm2
      (fun k hk => hg k (TouchF.head hk))
      (fun q hqq => hq q (ProbeF.head hqq))]
    rw [parse_agree_fields rest π d pm1 pm2
      (fun k hk => hg k (TouchF.tail hk))
      (fun q hqq => hq q (ProbeF.tail hqq))]
end

theorem jsMapGet_append (A B : List (Str × Str)) (k : Str) :
    jsMapGet (A ++ B) k
      = match jsMapGet B k with
        | some v => some v
        | none => jsMapGet A k := by
  induction A with
  | nil =>
    simp only [List.nil_append]
    cases jsMapGet B k <;> rfl
  | cons e A ih =>
    have step : ∀ (L : List (Str × Str)), jsMapGet (e :: L) k
        = match jsMapGet L k with
          | some v => some v
          | none => if e.1 = k then some e.2 else none := fun L => rfl
    simp only [List.cons_append]
    rw [step (A ++ B), ih, step A]
    rcases hB : jsMapGet B k with _ | w <;> rfl

theorem jsMapGet_middle (M1 M2 : List (Str × Str)) (k v k2 : Str) (hne : ¬ k2 = k) :
    jsMapGet (M1 ++ (k, v) :: M2) k2 = jsMapGet (M1 ++ M2) k2 := by
  rw [jsMapGet_append, jsMapGet_append]
  have h : jsMapGet ((k, v) :: M2) k2 = jsMapGet M2 k2 := by
    have step : jsMapGet ((k, v) :: M2) k2
        = match jsMapGet M2 k2 with
          | some w => some w
          | none => if k = k2 then some v else none := rfl
    rw [step]
    rcases hM : jsMapGet M2 k2 with _ | w
    · exact if_neg (fun he => hne he.symm)
    · rfl
  rw [h]

theorem probeEx_middle (M1 M2 : List (Str × Str)) (k v q : Str) (hs : strPre q k = false) :
    probeEx (M1 ++ (k, v) :: M2) q = probeEx (M1 ++ M2) q := by
  simp [probeEx, List.any_append, List.any_cons, hs]

/-- C4 (amended): a key the parser never reads — one that equals no
touched primitive path of the schema and that no probed array-element
path is a string prefix of — can be inserted anywhere in the flat map
without changing the output: such unknown keys are ignored entirely and
never raise.  (The prefix condition is necessary: the `startsWith` probe
lets an unresolvable key such as `items.0extra` materialize an array
element, see the counterexample.) -/
theorem claim4_unknown_keys_amended (S : SchemaNode) (k v : Str)
    (M1 M2 : List (Str × Str)) (d : Option PTree)
    (hget : ¬ Touch S [] k)
    (hprobe : ∀ q, Probe S [] q → strPre q k = false) :
    parseFlat S (M1 ++ (k, v) :: M2) d = parseFlat S (M1 ++ M2) d := by
  unfold parseFlat
  apply parse_agree_node
  · intro k2 ht
    exact jsMapGet_middle M1 M2 k v k2 (fun he => hget (he ▸ ht))
  · intro q hpq
    exact probeEx_middle M1 M2 k v q (hprobe q hpq)

/-- Closed instance of C4: adding the unknown key `unknown` to the flat
map leaves the parse of `{id:'number'}` unchanged. -/
theorem claim4_witness :
    parseFlat cSchemaId [(cKid, strOf "42"), (strOf "unknown", strOf "x")] none
      = parseFlat cSchemaId [(cKid, strOf "42")] none := by
  have h := claim4_unknown_keys_amended cSchemaId (strOf "unknown") (strOf "x")
    [(cKid, strOf "42")] [] none
    (by
      intro ht
      rcases TouchF_cons_inv (Touch_obj_inv ht) with h2 | h2
      · exact absurd (Touch_leaf_eq h2) (by decide)
      · exact TouchF_nil h2)
    (by
      intro q hpq
      rcases ProbeF_cons_inv (Probe_obj_inv hpq) with h2 | h2
      · exact (Probe_leaf h2).elim
      · exact (ProbeF_nil h2).elim)
  exact h

/-!
Key-grammar combinatorics: flat keys are chains of dot-separated
segments, and distinct first segments keep whole chains apart — the
backbone of the round-trip argument.
-/

theorem takeWhile_append_all (p : Char → Bool) :
    ∀ (a b : Str), (∀ c ∈ a, p c = true) → (a ++ b).takeWhile p = a ++ b.takeWhile p := by
  intro a
  induction a with
  | nil => intro b h; rfl
  | cons c rest ih =>
    intro b h
    have hc : p c = true := h c (by simp)
    simp [List.takeWhile_cons, hc, ih b (fun x hx => h x (by simp [hx]))]

theorem takeWhile_all (p : Char → Bool) (a : Str) (h : ∀ c ∈ a, p c = true) :
    a.takeWhile p = a := by
  have h2 := takeWhile_append_all p a [] h
  simpa using h2

theorem dotFree_iff (s : Str) : dotFree s = true ↔ ∀ c ∈ s, ¬ c = '.' := by
  simp [dotFree, List.all_eq_true]

theorem dotFree_char_pred {s : Str} (h : dotFree s = true) :
    ∀ c ∈ s, (fun c => ¬ c = '.' : Char → Bool) c = true := by
  intro c hc
  simpa using (dotFree_iff s).1 h c hc

theorem strPre_antisymm {a b : Str} (h1 : strPre a b = true) (h2 : strPre b a = true) :
    a = b := by
  obtain ⟨t, ht⟩ := (strPre_iff a b).1 h1
  have hla := strPre_length h1
  have hlb := strPre_length h2
  have hlen : t.length = 0 := by
    have := congrArg List.length ht
    simp at this
    omega
  rw [List.length_eq_zero] at hlen
  rw [ht, hlen, List.append_nil]

/-- Two dot-free head segments extended by dot-led (or empty) remainders:
a prefix relation between the extended strings forces the head segments
to relate — either equal, or the left remainder is empty and the left
head is a prefix of the right head. -/
theorem seg_eq_of_strPre {f g r1 r2 : Str}
    (hf : dotFree f = true) (hg : dotFree g = true)
    (h1 : r1 = [] ∨ ∃ t, r1 = '.' :: t) (h2 : r2 = [] ∨ ∃ t, r2 = '.' :: t)
    (hpre : strPre (f ++ r1) (g ++ r2) = true) :
    f = g ∨ (r1 = [] ∧ strPre f g = true) := by
  obtain ⟨tail, htail⟩ := (strPre_iff _ _).1 hpre
  have hTg : (g ++ r2).takeWhile (fun c => ¬ c = '.') = g := by
    rcases h2 with h2 | ⟨t, h2⟩
    · subst h2
      simpa using takeWhile_all _ g (dotFree_char_pred hg)
    · subst h2
      rw [takeWhile_append_all _ g ('.' :: t) (dotFree_char_pred hg)]
      simp [List.takeWhile_cons]
  rcases h1 with h1 | ⟨t, h1⟩
  · subst h1
    right
    refine ⟨rfl, ?_⟩
    have hT2 : (g ++ r2).takeWhile (fun c => ¬ c = '.')
        = f ++ tail.takeWhile (fun c => ¬ c = '.') := by
      rw [htail]
      simp only [List.append_nil]
      exact takeWhile_append_all _ f tail (dotFree_char_pred hf)
    rw [hTg] at hT2
    rw [hT2]
    exact strPre_append f _
  · subst h1
    left
    have hT2 : (g ++ r2).takeWhile (fun c => ¬ c = '.') = f := by
      rw [htail, List.append_assoc, List.cons_append,
        takeWhile_append_all _ f ('.' :: (t ++ tail)) (dotFree_char_pred hf)]
      simp [List.takeWhile_cons]
    rw [hTg] at hT2
    exact hT2.symm

/-- Chain extension below a path: the key is the path itself or the path
followed by a dot and more. -/
def dotExt (ρ k : Str) : Prop := k = ρ ∨ ∃ rest, k = ρ ++ '.' :: rest

theorem dotExt_refl (ρ : Str) : dotExt ρ ρ := Or.inl rfl

theorem dotExt_strPre {ρ k : Str} (h : dotExt ρ k) : strPre ρ k = true := by
  rcases h with h | ⟨rest, h⟩
  · rw [h]; exact strPre_refl ρ
  · rw [h]; exact strPre_append ρ _

theorem jp_ne_nil {π f : Str} (hf : ¬ f = []) : ¬ jp π f = [] := by
  unfold jp
  by_cases hπ : π = []
  · rw [if_pos hπ]; exact hf
  · rw [if_neg hπ]
    intro h
    have := congrArg List.length h
    simp at this

theorem jp_ne_nil_of_path {π f : Str} (hπ : ¬ π = []) : ¬ jp π f = [] := by
  unfold jp
  rw [if_neg hπ]
  intro h
  have := congrArg List.length h
  simp at this

theorem jp_append_seg (π f t : Str) : jp π f ++ '.' :: t = jp π (f ++ '.' :: t) := by
  unfold jp
  by_cases hπ : π = []
  · rw [if_pos hπ, if_pos hπ]
  · rw [if_neg hπ, if_neg hπ]
    simp

theorem jp_append_r (π f r : Str) : jp π f ++ r = jp π (f ++ r) := by
  unfold jp
  by_cases hπ : π = []
  · rw [if_pos hπ, if_pos hπ]
  · rw [if_neg hπ, if_neg hπ]
    simp

theorem jp_inj_right {π a b : Str} (h : jp π a = jp π b) : a = b := by
  unfold jp at h
  by_cases hπ : π = []
  · rw [if_pos hπ, if_pos hπ] at h; exact h
  · rw [if_neg hπ, if_neg hπ] at h
    rw [append_dot_cons π a, append_dot_cons π b] at h
    exact List.append_cancel_left h

theorem strPre_jp (π a b : Str) : strPre (jp π a) (jp π b) = strPre a b := by
  unfold jp
  by_cases hπ : π = []
  · rw [if_pos hπ, if_pos hπ]
  · rw [if_neg hπ, if_neg hπ, append_dot_cons π a, append_dot_cons π b]
    exact strPre_cancel (π ++ ['.']) a b

theorem dotExt_jp_decomp {π f k : Str} (h : dotExt (jp π f) k) :
    ∃ r, (r = [] ∨ ∃ t, r = '.' :: t) ∧ k = jp π (f ++ r) := by
  rcases h with h | ⟨rest, h⟩
  · exact ⟨[], Or.inl rfl, by rw [h, List.append_nil]⟩
  · exact ⟨'.' :: rest, Or.inr ⟨rest, rfl⟩, by rw [h, jp_append_seg]⟩

theorem dotExt_jp_strict {π g k : Str} (hπ : ¬ π = []) (h : dotExt (jp π g) k) :
    ∃ t, k = π ++ '.' :: t := by
  obtain ⟨r, hr, hk⟩ := dotExt_jp_decomp h
  refine ⟨g ++ r, ?_⟩
  rw [hk]
  unfold jp
  rw [if_neg hπ]

theorem dotExt_jp_trans {π g k : Str} (hπ : ¬ π = []) (h : dotExt (jp π g) k) :
    dotExt π k := by
  obtain ⟨t, ht⟩ := dotExt_jp_strict hπ h
  exact Or.inr ⟨t, ht⟩

/-- Chains hanging below sibling segments never share a key. -/
theorem sep_key {π f g k q : Str} (hf : dotFree f = true) (hg : dotFree g = true)
    (hne : ¬ f = g) (hk : dotExt (jp π f) k) (hq : dotExt (jp π g) q) : ¬ k = q := by
  intro he
  obtain ⟨r1, hr1, hk2⟩ := dotExt_jp_decomp hk
  obtain ⟨r2, hr2, hq2⟩ := dotExt_jp_decomp hq
  have heq : f ++ r1 = g ++ r2 := jp_inj_right (by rw [← hk2, ← hq2, he])
  have hp1 : strPre (f ++ r1) (g ++ r2) = true := by rw [heq]; exact strPre_refl _
  have hp2 : strPre (g ++ r2) (f ++ r1) = true := by rw [heq]; exact strPre_refl _
  rcases seg_eq_of_strPre hf hg hr1 hr2 hp1 with h | ⟨he1, hfg⟩
  · exact hne h
  rcases seg_eq_of_strPre hg hf hr2 hr1 hp2 with h | ⟨he2, hgf⟩
  · exact hne h.symm
  exact hne (strPre_antisymm hfg hgf)

/-- A probe prefix strictly below segment `f` never prefix-matches a key
chained below a different sibling segment `g`. -/
theorem sep_probe {π f g q k : Str} (hf : dotFree f = true) (hg : dotFree g = true)
    (hne : ¬ f = g) (hq : ∃ t, q = jp π f ++ '.' :: t) (hk : dotExt (jp π g) k) :
    strPre q k = false := by
  rcases hs : strPre q k with _ | _
  · rfl
  exfalso
  obtain ⟨t, hqe⟩ := hq
  obtain ⟨r2, hr2, hk2⟩ := dotExt_jp_decomp hk
  have hs2 : strPre (jp π (f ++ '.' :: t)) (jp π (g ++ r2)) = true := by
    rw [← jp_append_seg, ← hqe, ← hk2]
    exact hs
  rw [strPre_jp] at hs2
  rcases seg_eq_of_strPre hf hg (Or.inr ⟨t, rfl⟩) hr2 hs2 with h | ⟨he1, _⟩
  · exact hne h
  · cases he1

/-- A probe at array index `a` never prefix-matches a key chained below a
smaller index `b`: canonical decimal strings of distinct naturals are
distinct segments, and a prefix among them forces the smaller value on
the left. -/
theorem sep_probe_digits {ρ : Str} {a b : Nat} (hab : b < a) {k : Str}
    (hk : dotExt (jp ρ (natToDigits b)) k) :
    strPre (jp ρ (natToDigits a)) k = false := by
  rcases hs : strPre (jp ρ (natToDigits a)) k with _ | _
  · rfl
  exfalso
  obtain ⟨r2, hr2, hk2⟩ := dotExt_jp_decomp hk
  have hs2 : strPre (jp ρ (natToDigits a ++ [])) (jp ρ (natToDigits b ++ r2)) = true := by
    rw [List.append_nil, ← hk2]
    exact hs
  rw [strPre_jp] at hs2
  have hfd : dotFree (natToDigits a) = true :=
    (dotFree_iff _).2 (natToDigits_dotFree a)
  have hgd : dotFree (natToDigits b) = true :=
    (dotFree_iff _).2 (natToDigits_dotFree b)
  rcases seg_eq_of_strPre hfd hgd (Or.inl rfl) hr2 (by simpa using hs2) with h | ⟨_, hpre⟩
  · exact absurd (natToDigits_inj h) (by omega)
  · have := valLZ_le_of_strPre hpre
    rw [valLZ_natToDigits, valLZ_natToDigits] at this
    omega

theorem jsMapGet_eq_none {es : List (Str × Str)} {k : Str}
    (h : ∀ e ∈ es, ¬ e.1 = k) : jsMapGet es k = none := by
  induction es with
  | nil => rfl
  | cons e rest ih =>
    have step : jsMapGet (e :: rest) k
        = match jsMapGet rest k with
          | some v => some v
          | none => if e.1 = k then some e.2 else none := rfl
    rw [step, ih (fun x hx => h x (by simp [hx]))]
    exact if_neg (h e (by simp))

theorem jsMapGet_mid (A B C : List (Str × Str)) (k : Str)
    (hA : ∀ e ∈ A, ¬ e.1 = k) (hC : ∀ e ∈ C, ¬ e.1 = k) :
    jsMapGet (A ++ B ++ C) k = jsMapGet B k := by
  rw [List.append_assoc, jsMapGet_append, jsMapGet_append, jsMapGet_eq_none hC,
    jsMapGet_eq_none hA]
  cases jsMapGet B k <;> rfl

theorem probeEx_mid (A B C : List (Str × Str)) (q : Str)
    (hA : ∀ e ∈ A, strPre q e.1 = false) (hC : ∀ e ∈ C, strPre q e.1 = false) :
    probeEx (A ++ B ++ C) q = probeEx B q := by
  simp only [probeEx, List.any_append, Bool.or_eq_false_iff]
  have h1 : A.any (fun e => strPre q e.1) = false := by
    simp only [List.any_eq_false]
    exact fun e he => by simp [hA e he]
  have h2 : C.any (fun e => strPre q e.1) = false := by
    simp only [List.any_eq_false]
    exact fun e he => by simp [hC e he]
  rw [h1, h2]
  simp

theorem probeEx_of_mem {es : List (Str × Str)} {q : Str} {e : Str × Str}
    (hm : e ∈ es) (hp : strPre q e.1 = true) : probeEx es q = true := by
  simp only [probeEx, List.any_eq_true]
  exact ⟨e, hm, hp⟩

theorem probeEx_eq_false {es : List (Str × Str)} {q : Str}
    (h : ∀ e ∈ es, strPre q e.1 = false) : probeEx es q = false := by
  simp only [probeEx, List.any_eq_false]
  exact fun e he => by simp [h e he]

mutual
/-- Keys the parser reads below a nonempty path are chain extensions of
that path. -/
theorem touch_shape_node (S : SchemaNode) : ∀ (ρ k : Str),
    wfNode S = true → ¬ ρ = [] → Touch S ρ k → dotExt ρ k := by
  intro ρ k hwf hρ ht
  cases S with
  | leaf tag =>
    rw [Touch_leaf_eq ht]
    exact dotExt_refl ρ
  | arr el =>
    cases ht with
    | arrPrim i hp => exact dotExt_jp_trans hρ (dotExt_refl _)
    | arrObj i hp h2 =>
      have hwfel : wfNode el = true := by
        cases el with
        | leaf tag =>
          simp only [isPrimElem] at hp
          simp only [wfNode] at hwf
          rw [hwf] at hp
          cases hp
        | arr el2 => simp only [wfNode] at hwf; cases hwf
        | obj fs => simpa [wfNode] using hwf
      have := touch_shape_node el (jp ρ (natToDigits i)) k hwfel
        (jp_ne_nil_of_path hρ) h2
      exact dotExt_jp_trans hρ this
  | obj fs =>
    obtain ⟨g, hgm, hge⟩ := touch_shape_fields fs ρ k (by simpa [wfNode] using hwf)
      (Touch_obj_inv ht)
    exact dotExt_jp_trans hρ hge
theorem touch_shape_fields (fs : SFields) : ∀ (π k : Str),
    wfFields fs = true → TouchF fs π k →
    ∃ g, fieldMem g fs = true ∧ dotExt (jp π g) k := by
  intro π k hwf ht
  cases fs with
  | nil => exact absurd ht TouchF_nil
  | cons f sub rest =>
    simp only [wfFields, Bool.and_eq_true, decide_eq_true_eq] at hwf
    obtain ⟨hf1, hf2, hf3, hf4, hf5⟩ := hwf
    rcases TouchF_cons_inv ht with h2 | h2
    · refine ⟨f, by simp [fieldMem], ?_⟩
      exact touch_shape_node sub (jp π f) k hf4 (jp_ne_nil hf1) h2
    · obtain ⟨g, hgm, hge⟩ := touch_shape_fields rest π k hf5 h2
      exact ⟨g, by simp [fieldMem, hgm], hge⟩
end

mutual
/-- Prefixes the parser probes below a nonempty path extend that path by
at least one segment. -/
theorem probe_shape_node (S : SchemaNode) : ∀ (ρ q : Str),
    wfNode S = true → ¬ ρ = [] → Probe S ρ q → ∃ t, q = ρ ++ '.' :: t := by
  intro ρ q hwf hρ hp
  cases S with
  | leaf tag => exact absurd hp Probe_leaf
  | arr el =>
    cases hp with
    | arr i h1 => exact dotExt_jp_strict hρ (dotExt_refl _)
    | arrRec i h1 h2 =>
      have hwfel : wfNode el = true := by
        cases el with
        | leaf tag =>
          simp only [isPrimElem] at h1
          simp only [wfNode] at hwf
          rw [hwf] at h1
          cases h1
        | arr el2 => simp only [wfNode] at hwf; cases hwf
        | obj fs => simpa [wfNode] using hwf
      obtain ⟨t, ht⟩ := probe_shape_node el (jp ρ (natToDigits i)) q hwfel
        (jp_ne_nil_of_path hρ) h2
      exact dotExt_jp_strict hρ (Or.inr ⟨t, ht⟩)
  | obj fs =>
    obtain ⟨g, t, hgm, hge⟩ := probe_shape_fields fs ρ q (by simpa [wfNode] using hwf)
      (Probe_obj_inv hp)
    exact dotExt_jp_strict hρ (Or.inr ⟨t, hge⟩)
theorem probe_shape_fields (fs : SFields) : ∀ (π q : Str),
    wfFields fs = true → ProbeF fs π q →
    ∃ g t, fieldMem g fs = true ∧ q = jp π g ++ '.' :: t := by
  intro π q hwf hp
  cases fs with
  | nil => exact absurd hp ProbeF_nil
  | cons f sub rest =>
    simp only [wfFields, Bool.and_eq_true, decide_eq_true_eq] at hwf
    obtain ⟨hf1, hf2, hf3, hf4, hf5⟩ := hwf
    rcases ProbeF_cons_inv hp with h2 | h2
    · obtain ⟨t, ht⟩ := probe_shape_node sub (jp π f) q hf4 (jp_ne_nil hf1) h2
      exact ⟨f, t, by simp [fieldMem], ht⟩
    · obtain ⟨g, t, hgm, hge⟩ := probe_shape_fields rest π q hf5 h2
      exact ⟨g, t, by simp [fieldMem, hgm], hge⟩
end

def pfMem (g : Str) : PFields → Bool
  | .nil => false
  | .cons f _ rest => f = g ∨ pfMem g rest

theorem serializePrimList_mem (tag ρ : Str) : ∀ (els : PList) (i0 : Nat) (e : Str × Str),
    e ∈ serializePrimList tag els ρ i0 →
    ∃ j, j < els.length ∧ e.1 = jp ρ (natToDigits (i0 + j))
  | .nil, i0, e, h => by simp [serializePrimList] at h
  | .cons t rest, i0, e, h => by
    unfold serializePrimList at h
    rcases List.mem_append.1 h with h2 | h2
    · rcases t with v | els2 | fs2
      · simp only at h2
        rcases hst : stringifyPrimitive tag v with _ | s2
        · rw [hst] at h2
          simp at h2
        · rw [hst] at h2
          simp at h2
          refine ⟨0, by simp only [PList.length]; omega, ?_⟩
          subst h2
          simp
      · simp at h2
      · simp at h2
    · obtain ⟨j, hj, hk⟩ := serializePrimList_mem tag ρ rest (i0 + 1) e h2
      refine ⟨j + 1, by simp only [PList.length]; omega, ?_⟩
      rw [show i0 + (j + 1) = i0 + 1 + j from by omega]
      exact hk

theorem serializeObjList_mem (el : SchemaNode) (ρ : Str) : ∀ (els : PList) (i0 : Nat)
    (e : Str × Str), e ∈ serializeObjList el els ρ i0 →
    ∃ j t2, els.idx j = some t2 ∧ e ∈ serializeNode el t2 (jp ρ (natToDigits (i0 + j)))
  | .nil, i0, e, h => by simp [serializeObjList] at h
  | .cons t rest, i0, e, h => by
    unfold serializeObjList at h
    rcases List.mem_append.1 h with h2 | h2
    · exact ⟨0, t, rfl, by rw [Nat.add_zero]; exact h2⟩
    · obtain ⟨j, t2, hidx, hm⟩ := serializeObjList_mem el ρ rest (i0 + 1) e h2
      refine ⟨j + 1, t2, by simp only [PList.idx]; exact hidx, ?_⟩
      rw [show i0 + (j + 1) = i0 + 1 + j from by omega]
      exact hm

theorem serializeFieldsGo_mem : ∀ (tfs : PFields) (fs : SFields) (π : Str) (e : Str × Str),
    e ∈ serializeFieldsGo fs tfs π →
    ∃ g t2 sub2, pfMem g tfs = true ∧ SFields.fget fs g = some sub2
      ∧ e ∈ serializeNode sub2 t2 (jp π g)
  | .nil, fs, π, e, h => by simp [serializeFieldsGo] at h
  | .cons g t rest, fs, π, e, h => by
    unfold serializeFieldsGo at h
    rcases List.mem_append.1 h with h2 | h2
    · rcases hget : SFields.fget fs g with _ | sub
      · rw [hget] at h2
        simp at h2
      · rw [hget] at h2
        exact ⟨g, t, sub, by simp [pfMem], hget, h2⟩
    · obtain ⟨g2, t2, sub2, hm, hget2, hmem2⟩ := serializeFieldsGo_mem rest fs π e h2
      exact ⟨g2, t2, sub2, by simp [pfMem, hm], hget2, hmem2⟩

mutual
/-- Keys emitted below a nonempty path are chain extensions of it. -/
theorem serializeNode_shape (T : PTree) : ∀ (S : SchemaNode) (ρ : Str) (e : Str × Str),
    ¬ ρ = [] → e ∈ serializeNode S T ρ → dotExt ρ e.1 := by
  intro S ρ e hρ h
  cases T with
  | leaf v =>
    cases S with
    | leaf tag =>
      unfold serializeNode at h
      rcases hst : stringifyPrimitive tag v with _ | s2
      · rw [hst] at h
        simp at h
      · rw [hst] at h
        simp at h
        subst h
        exact dotExt_refl ρ
    | arr el => simp [serializeNode] at h
    | obj fs => simp [serializeNode] at h
  | arr els =>
    cases S with
    | leaf tag => simp [serializeNode] at h
    | arr el =>
      unfold serializeNode at h
      by_cases hp : isPrimElem el = true
      · rw [if_pos hp] at h
        obtain ⟨j, hj, hk⟩ := serializePrimList_mem (elemTag el) ρ els 0 e h
        rw [hk]
        exact dotExt_jp_trans hρ (dotExt_refl _)
      · rw [if_neg hp] at h
        obtain ⟨t, ht⟩ := serializeObjList_shape els el ρ 0 e hρ h
        exact Or.inr ⟨t, ht⟩
    | obj fs => simp [serializeNode] at h
  | obj tfs =>
    cases S with
    | leaf tag => simp [serializeNode] at h
    | arr el => simp [serializeNode] at h
    | obj fs =>
      unfold serializeNode at h
      obtain ⟨t, ht⟩ := serializeFields_shape tfs fs ρ e hρ h
      exact Or.inr ⟨t, ht⟩
theorem serializeObjList_shape (els : PList) : ∀ (el : SchemaNode) (ρ : Str) (i0 : Nat)
    (e : Str × Str), ¬ ρ = [] → e ∈ serializeObjList el els ρ i0 →
    ∃ t, e.1 = ρ ++ '.' :: t := by
  intro el ρ i0 e hρ h
  cases els with
  | nil => simp [serializeObjList] at h
  | cons t rest =>
    unfold serializeObjList at h
    rcases List.mem_append.1 h with h2 | h2
    · have hsh := serializeNode_shape t el (jp ρ (natToDigits i0)) e
        (jp_ne_nil (natToDigits_ne_nil i0)) h2
      exact dotExt_jp_strict hρ hsh
    · exact serializeObjList_shape rest el ρ (i0 + 1) e hρ h2
theorem serializeFields_shape (tfs : PFields) : ∀ (fs : SFields) (π : Str) (e : Str × Str),
    ¬ π = [] → e ∈ serializeFieldsGo fs tfs π → ∃ t, e.1 = π ++ '.' :: t := by
  intro fs π e hπ h
  cases tfs with
  | nil => simp [serializeFieldsGo] at h
  | cons g t rest =>
    unfold serializeFieldsGo at h
    rcases List.mem_append.1 h with h2 | h2
    · rcases hget : SFields.fget fs g with _ | sub
      · rw [hget] at h2
        simp at h2
      · rw [hget] at h2
        have hsh := serializeNode_shape t sub (jp π g) e (jp_ne_nil_of_path hπ) h2
        exact dotExt_jp_strict hπ hsh
    · exact serializeFields_shape rest fs π e hπ h2
end

theorem emitsPrimList_serialize_ne (tag ρ : Str) : ∀ (els : PList) (i0 : Nat),
    emitsPrimList tag els = true → ¬ serializePrimList tag els ρ i0 = []
  | .nil, i0, h, _ => by simp [emitsPrimList] at h
  | .cons t rest, i0, h, hc => by
    unfold serializePrimList at hc
    rcases t with v | a | b
    · simp only at hc
      rcases hst : stringifyPrimitive tag v with _ | s
      · rw [hst] at hc
        simp only [List.nil_append] at hc
        have h2 : emitsPrimList tag rest = true := by
          simp [emitsPrimList, hst] at h
          exact h
        exact emitsPrimList_serialize_ne tag ρ rest (i0 + 1) h2 hc
      · rw [hst] at hc
        simp at hc
    · simp only at hc
      simp only [List.nil_append] at hc
      exact emitsPrimList_serialize_ne tag ρ rest (i0 + 1)
        (by simpa [emitsPrimList] using h) hc
    · simp only at hc
      simp only [List.nil_append] at hc
      exact emitsPrimList_serialize_ne tag ρ rest (i0 + 1)
        (by simpa [emitsPrimList] using h) hc

mutual
/-- A subtree whose serialization is claimed nonempty by `emitsNode`
really emits at least one entry. -/
theorem emitsNode_serialize_ne (T : PTree) : ∀ (S : SchemaNode) (ρ : Str),
    emitsNode S T = true → ¬ serializeNode S T ρ = [] := by
  intro S ρ h hc
  cases T with
  | leaf v =>
    cases S with
    | leaf tag =>
      unfold serializeNode at hc
      rcases hst : stringifyPrimitive tag v with _ | s
      · simp [emitsNode, hst] at h
      · rw [hst] at hc
        simp at hc
    | arr el => simp [emitsNode] at h
    | obj fs => simp [emitsNode] at h
  | arr els =>
    cases S with
    | leaf tag => simp [emitsNode] at h
    | arr el =>
      unfold serializeNode at hc
      by_cases hp : isPrimElem el = true
      · rw [if_pos hp] at hc
        have h2 : emitsPrimList (elemTag el) els = true := by
          simp only [emitsNode, hp, if_true] at h
          exact h
        exact emitsPrimList_serialize_ne (elemTag el) ρ els 0 h2 hc
      · rw [if_neg hp] at hc
        have h2 : emitsObjList el els = true := by
          simp only [emitsNode, hp, if_false] at h
          exact h
        exact emitsObjList_serialize_ne els el ρ 0 h2 hc
    | obj fs => simp [emitsNode] at h
  | obj tfs =>
    cases S with
    | leaf tag => simp [emitsNode] at h
    | arr el => simp [emitsNode] at h
    | obj fs =>
      unfold serializeNode at hc
      exact emitsFields_serialize_ne tfs fs ρ (by simpa [emitsNode] using h) hc
theorem emitsObjList_serialize_ne (els : PList) : ∀ (el : SchemaNode) (ρ : Str) (i0 : Nat),
    emitsObjList el els = true → ¬ serializeObjList el els ρ i0 = [] := by
  intro el ρ i0 h hc
  cases els with
  | nil => simp [emitsObjList] at h
  | cons t rest =>
    unfold serializeObjList at hc
    rw [List.append_eq_nil] at hc
    simp only [emitsObjList, Bool.or_eq_true, decide_eq_true_eq] at h
    rcases h with h | h
    · exact emitsNode_serialize_ne t el (jp ρ (natToDigits i0)) h hc.1
    · exact emitsObjList_serialize_ne rest el ρ (i0 + 1) h hc.2
theorem emitsFields_serialize_ne (tfs : PFields) : ∀ (fs : SFields) (π : Str),
    emitsFields fs tfs = true → ¬ serializeFieldsGo fs tfs π = [] := by
  intro fs π h hc
  cases tfs with
  | nil => simp [emitsFields] at h
  | cons g t rest =>
    unfold serializeFieldsGo at hc
    rw [List.append_eq_nil] at hc
    simp only [emitsFields, Bool.or_eq_true] at h
    rcases hget : SFields.fget fs g with _ | sub
    · rw [hget] at h
      rcases h with h | h
      · simp at h
      · exact emitsFields_serialize_ne rest fs π h hc.2
    · rw [hget] at h hc
      simp only at h hc
      rcases h with h | h
      · exact emitsNode_serialize_ne t sub (jp π g) h hc.1
      · exact emitsFields_serialize_ne rest fs π h hc.2
end

theorem serializeFieldsGo_skip (f : Str) (sub : SchemaNode) (fs : SFields) :
    ∀ (tfs : PFields) (π : Str), (∀ g, pfMem g tfs = true → ¬ g = f) →
    serializeFieldsGo (.cons f sub fs) tfs π = serializeFieldsGo fs tfs π
  | .nil, π, h => rfl
  | .cons g t rest, π, h => by
    unfold serializeFieldsGo
    have hne : ¬ f = g := fun he => h g (by simp [pfMem]) he.symm
    rw [show SFields.fget (.cons f sub fs) g = SFields.fget fs g from by
      simp [SFields.fget, hne]]
    rw [serializeFieldsGo_skip f sub fs rest π (fun g2 hg2 => h g2 (by simp [pfMem, hg2]))]

theorem gapFreeFields_skip (f : Str) (sub : SchemaNode) (fs : SFields) :
    ∀ (tfs : PFields), (∀ g, pfMem g tfs = true → ¬ g = f) →
    gapFreeFields (.cons f sub fs) tfs = gapFreeFields fs tfs
  | .nil, h => rfl
  | .cons g t rest, h => by
    unfold gapFreeFields
    have hne : ¬ f = g := fun he => h g (by simp [pfMem]) he.symm
    rw [show SFields.fget (.cons f sub fs) g = SFields.fget fs g from by
      simp [SFields.fget, hne]]
    rw [gapFreeFields_skip f sub fs rest (fun g2 hg2 => h g2 (by simp [pfMem, hg2]))]

theorem PList.idx_lt : ∀ (els : PList) (j : Nat), j < els.length → ∃ t, els.idx j = some t
  | .nil, j, h => by simp [PList.length] at h
  | .cons t rest, 0, _ => ⟨t, rfl⟩
  | .cons t rest, j + 1, h =>
    PList.idx_lt rest j (by simp only [PList.length] at h; omega)

theorem validObjList_idx : ∀ (els : PList) (el : SchemaNode) (j : Nat) (t : PTree),
    validObjList el els = true → els.idx j = some t → validNode el t = true
  | .nil, el, j, t, hv, hi => by simp [PList.idx] at hi
  | .cons t0 rest, el, 0, t, hv, hi => by
    simp only [PList.idx] at hi
    injection hi with hi
    subst hi
    simp only [validObjList, Bool.and_eq_true, decide_eq_true_eq] at hv
    exact hv.1
  | .cons t0 rest, el, j + 1, t, hv, hi => by
    simp only [PList.idx] at hi
    simp only [validObjList, Bool.and_eq_true, decide_eq_true_eq] at hv
    exact validObjList_idx rest el j t hv.2 hi

theorem gapFreeObjList_idx : ∀ (els : PList) (el : SchemaNode) (j : Nat) (t : PTree),
    gapFreeObjList el els = true → els.idx j = some t →
    emitsNode el t = true ∧ gapFreeNode el t = true
  | .nil, el, j, t, hv, hi => by simp [PList.idx] at hi
  | .cons t0 rest, el, 0, t, hv, hi => by
    simp only [PList.idx] at hi
    injection hi with hi
    subst hi
    simp only [gapFreeObjList, Bool.and_eq_true, decide_eq_true_eq] at hv
    exact ⟨hv.1, hv.2.1⟩
  | .cons t0 rest, el, j + 1, t, hv, hi => by
    simp only [PList.idx] at hi
    simp only [gapFreeObjList, Bool.and_eq_true, decide_eq_true_eq] at hv
    exact gapFreeObjList_idx rest el j t hv.2.2 hi

theorem validFieldsB_names : ∀ (fs : SFields) (tfs : PFields),
    validFieldsB fs tfs = true → ∀ g, pfMem g tfs = true → fieldMem g fs = true
  | .nil, .nil, h, g, hg => by simp [pfMem] at hg
  | .nil, .cons g0 t trest, h, g, hg => by simp [validFieldsB] at h
  | .cons f sub srest, .nil, h, g, hg => by simp [pfMem] at hg
  | .cons f sub srest, .cons g0 t trest, h, g, hg => by
    simp only [validFieldsB, Bool.and_eq_true, decide_eq_true_eq] at h
    simp only [pfMem, Bool.or_eq_true, decide_eq_true_eq] at hg
    rcases hg with hg | hg
    · simp [fieldMem, h.1, hg]
    · simp only [fieldMem, Bool.or_eq_true, decide_eq_true_eq]
      exact Or.inr (validFieldsB_names srest trest h.2.2 g hg)

theorem wf_field_props : ∀ (fs : SFields) (g : Str), wfFields fs = true →
    fieldMem g fs = true → ¬ g = [] ∧ dotFree g = true
  | .nil, g, h, hm => by simp [fieldMem] at hm
  | .cons f sub rest, g, h, hm => by
    simp only [wfFields, Bool.and_eq_true, decide_eq_true_eq] at h
    simp only [fieldMem, Bool.or_eq_true, decide_eq_true_eq] at hm
    rcases hm with hm | hm
    · subst hm
      exact ⟨h.1, h.2.1⟩
    · exact wf_field_props rest g h.2.2.2.2 hm

theorem validFieldsB_cons_inv {f : Str} {sub : SchemaNode} {srest : SFields} {tfs : PFields}
    (h : validFieldsB (.cons f sub srest) tfs = true) :
    ∃ t trest, tfs = .cons f t trest ∧ validNode sub t = true
      ∧ validFieldsB srest trest = true := by
  cases tfs with
  | nil => simp [validFieldsB] at h
  | cons g t trest =>
    simp only [validFieldsB, Bool.and_eq_true, decide_eq_true_eq] at h
    obtain ⟨hfg, hv, hrest⟩ := h
    subst hfg
    exact ⟨t, trest, rfl, hv, hrest⟩

theorem validLeafVal_null (tag : Str) : validLeafVal tag .null = true := by
  unfold validLeafVal
  by_cases h1 : tag = strOf "string"
  · simp [h1]
  by_cases h2 : tag = strOf "number"
  · simp [h1, h2]
  by_cases h3 : tag = strOf "date"
  · simp [h1, h2, h3]
  by_cases h4 : tag = strOf "boolean"
  · simp [h1, h2, h3, h4]
  simp [h1, h2, h3, h4]

theorem validLeafVal_coerce_none (tag : Str) (o : Option Str) :
    validLeafVal tag (coercePrimitive tag o none) = true := by
  rcases o with _ | s
  · exact validLeafVal_null tag
  · exact validLeafVal_parseKind tag s

theorem validPrimList_parse (pm : List (Str × Str)) (tag π : Str) :
    ∀ (f i : Nat), validPrimList tag (parsePrimArr pm tag π none i f) = true
  | 0, i => rfl
  | f + 1, i => by
    unfold parsePrimArr
    by_cases hc : condPrim pm π none i = true
    · rw [if_pos hc]
      simp only [validPrimList, Bool.and_eq_true, decide_eq_true_eq]
      constructor
      · rw [show dfltIdx (none : Option PTree) i = none from rfl]
        exact validLeafVal_coerce_none tag _
      · exact validPrimList_parse pm tag π f (i + 1)
    · rw [if_neg hc]
      rfl

theorem validObjList_go (el : SchemaNode) (pm : List (Str × Str)) (π : Str)
    (ep : Str → Option PTree → PTree) (hep : ∀ p2, validNode el (ep p2 none) = true) :
    ∀ (f i : Nat), validObjList el (parseObjArrGo ep pm π none i f) = true
  | 0, i => rfl
  | f + 1, i => by
    unfold parseObjArrGo
    by_cases hc : condObj pm π none i = true
    · rw [if_pos hc]
      simp only [validObjList, Bool.and_eq_true, decide_eq_true_eq]
      constructor
      · rw [show dfltIdx (none : Option PTree) i = none from rfl]
        exact hep _
      · exact validObjList_go el pm π ep hep f (i + 1)
    · rw [if_neg hc]
      rfl

mutual
/-- The parser only produces schema-shaped trees with representable leaf
values. -/
theorem validNode_parse (S : SchemaNode) : ∀ (pm : List (Str × Str)) (π : Str),
    wfNode S = true → validNode S (parseNode pm S π none) = true := by
  intro pm π hwf
  cases S with
  | leaf tag =>
    have hp : isPrimitive tag = true := by simpa [wfNode] using hwf
    unfold parseNode
    rw [if_pos hp]
    exact validLeafVal_coerce_none tag (jsMapGet pm π)
  | arr el =>
    by_cases hp : isPrimElem el = true
    · unfold parseNode
      rw [if_pos hp]
      have step : validNode (.arr el) (.arr (parsePrimArr pm (elemTag el) π none 0
          (arrFuel pm π none)))
          = validPrimList (elemTag el) (parsePrimArr pm (elemTag el) π none 0
            (arrFuel pm π none)) := by
        simp only [validNode, hp, if_true]
      rw [step]
      exact validPrimList_parse pm (elemTag el) π (arrFuel pm π none) 0
    · have hpf : isPrimElem el = false := by
        cases hval : isPrimElem el
        · rfl
        · exact absurd hval hp
      have hwfel : wfNode el = true := by
        cases el with
        | leaf tag =>
          simp only [isPrimElem] at hpf
          simp only [wfNode] at hwf
          rw [hwf] at hpf
          cases hpf
        | arr el2 => simp only [wfNode] at hwf; cases hwf
        | obj fs => simpa [wfNode] using hwf
      unfold parseNode
      rw [if_neg hp]
      have step : validNode (.arr el) (.arr (parseObjArrGo
          (fun p2 d2 => parseNode pm el p2 d2) pm π none 0 (arrFuel pm π none)))
          = validObjList el (parseObjArrGo (fun p2 d2 => parseNode pm el p2 d2)
            pm π none 0 (arrFuel pm π none)) := by
        simp [validNode, hpf]
      rw [step]
      exact validObjList_go el pm π (fun p2 d2 => parseNode pm el p2 d2)
        (fun p2 => validNode_parse el pm p2 hwfel) (arrFuel pm π none) 0
  | obj fs =>
    unfold parseNode
    have step : validNode (.obj fs) (.obj (parseFields pm fs π none))
        = validFieldsB fs (parseFields pm fs π none) := by
      simp only [validNode]
    rw [step]
    exact validFields_parse fs pm π (by simpa [wfNode] using hwf)
theorem validFields_parse (fs : SFields) : ∀ (pm : List (Str × Str)) (π : Str),
    wfFields fs = true → validFieldsB fs (parseFields pm fs π none) = true := by
  intro pm π hwf
  cases fs with
  | nil => rfl
  | cons f sub rest =>
    simp only [wfFields, Bool.and_eq_true, decide_eq_true_eq] at hwf
    obtain ⟨hf1, hf2, hf3, hf4, hf5⟩ := hwf
    unfold parseFields
    simp only [validFieldsB, Bool.and_eq_true, decide_eq_true_eq]
    refine ⟨by simp, ?_, ?_⟩
    · rw [show dfltField (none : Option PTree) f = none from rfl]
      exact validNode_parse sub pm (jp π f) hf4
    · exact validFields_parse rest pm π hf5
end

theorem validPrimList_cons_inv {tag : Str} {t : PTree} {rest : PList}
    (h : validPrimList tag (.cons t rest) = true) :
    ∃ v, t = .leaf v ∧ validLeafVal tag v = true ∧ validPrimList tag rest = true := by
  rcases t with v | a | b
  · simp only [validPrimList, Bool.and_eq_true, decide_eq_true_eq] at h
    exact ⟨v, rfl, h.1, h.2⟩
  · simp [validPrimList] at h
  · simp [validPrimList] at h

theorem noNullPrimList_head {v : JSVal} {rest : PList}
    (h : noNullPrimList (.cons (.leaf v) rest) = true) : ¬ v = .null := by
  intro hv
  subst hv
  simp [noNullPrimList] at h

theorem noNullPrimList_tail {t : PTree} {rest : PList}
    (h : noNullPrimList (.cons t rest) = true) : noNullPrimList rest = true := by
  rcases t with v | a | b
  · rcases v with _ | s | n | b2 | d
    · simp [noNullPrimList] at h
    all_goals simpa [noNullPrimList] using h
  · simpa [noNullPrimList] using h
  · simpa [noNullPrimList] using h

/-- Lookup into the serialization of a gap-free valid primitive list: every
index below the length answers with the stringified element. -/
theorem serializePrimList_get (tag ρ : Str) : ∀ (els : PList) (i0 : Nat),
    validPrimList tag els = true → noNullPrimList els = true →
    ∀ j, j < els.length →
    ∃ s, jsMapGet (serializePrimList tag els ρ i0) (jp ρ (natToDigits (i0 + j))) = some s
      ∧ ¬ s = [] ∧ els.idx j = some (.leaf (parseKind tag s))
  | .nil, i0, _, _, j, hj => by simp [PList.length] at hj
  | .cons t rest, i0, hv, hn, j, hj => by
    obtain ⟨v, ht, hval, hvrest⟩ := validPrimList_cons_inv hv
    subst ht
    have hvn : ¬ v = .null := noNullPrimList_head hn
    have hnrest : noNullPrimList rest = true := noNullPrimList_tail hn
    obtain ⟨s, hs, hsne, hsp⟩ := roundKind hval hvn
    have hser : serializePrimList tag (.cons (.leaf v) rest) ρ i0
        = [(jp ρ (natToDigits i0), s)] ++ serializePrimList tag rest ρ (i0 + 1) := by
      show (match stringifyPrimitive tag v with
        | some s2 => [(jp ρ (natToDigits i0), s2)]
        | none => []) ++ serializePrimList tag rest ρ (i0 + 1)
        = [(jp ρ (natToDigits i0), s)] ++ serializePrimList tag rest ρ (i0 + 1)
      rw [hs]
    rw [hser]
    match j with
    | 0 =>
      refine ⟨s, ?_, hsne, ?_⟩
      · rw [jsMapGet_append]
        have hnone : jsMapGet (serializePrimList tag rest ρ (i0 + 1))
            (jp ρ (natToDigits (i0 + 0))) = none := by
          apply jsMapGet_eq_none
          intro e he hke
          obtain ⟨j2, hj2, hkk⟩ := serializePrimList_mem tag ρ rest (i0 + 1) e he
          rw [hke] at hkk
          have := natToDigits_inj (jp_inj_right hkk)
          omega
        rw [hnone]
        show jsMapGet [(jp ρ (natToDigits i0), s)] (jp ρ (natToDigits (i0 + 0))) = some s
        rw [Nat.add_zero]
        simp [jsMapGet]
      · simp only [PList.idx, Option.some_inj]
        rw [hsp]
    | j2 + 1 =>
      obtain ⟨s2, hg2, hne2, hidx2⟩ := serializePrimList_get tag ρ rest (i0 + 1) hvrest
        hnrest j2 (by simp only [PList.length] at hj; omega)
      refine ⟨s2, ?_, hne2, by simp only [PList.idx]; exact hidx2⟩
      rw [jsMapGet_append]
      rw [show i0 + (j2 + 1) = i0 + 1 + j2 from by omega]
      rw [hg2]

theorem serializeObjList_decomp (el : SchemaNode) (ρ : Str) : ∀ (els : PList) (i0 j : Nat)
    (tj : PTree), els.idx j = some tj →
    ∃ A C, serializeObjList el els ρ i0
        = A ++ serializeNode el tj (jp ρ (natToDigits (i0 + j))) ++ C
      ∧ (∀ e, e ∈ A ∨ e ∈ C → ∃ j2 t2, ¬ j2 = j ∧ els.idx j2 = some t2
          ∧ e ∈ serializeNode el t2 (jp ρ (natToDigits (i0 + j2))))
  | .nil, i0, j, tj, h => by simp [PList.idx] at h
  | .cons t rest, i0, 0, tj, h => by
    simp only [PList.idx] at h
    injection h with h
    subst h
    refine ⟨[], serializeObjList el rest ρ (i0 + 1), ?_, ?_⟩
    · rw [Nat.add_zero]
      simp [serializeObjList]
    · intro e he
      rcases he with he | he
      · simp at he
      · obtain ⟨j2, t2, hidx2, hm2⟩ := serializeObjList_mem el ρ rest (i0 + 1) e he
        refine ⟨j2 + 1, t2, by omega, by simp only [PList.idx]; exact hidx2, ?_⟩
        rw [show i0 + (j2 + 1) = i0 + 1 + j2 from by omega]
        exact hm2
  | .cons t rest, i0, j2 + 1, tj, h => by
    simp only [PList.idx] at h
    obtain ⟨A, C, hser, hmemAC⟩ := serializeObjList_decomp el ρ rest (i0 + 1) j2 tj h
    refine ⟨serializeNode el t (jp ρ (natToDigits i0)) ++ A, C, ?_, ?_⟩
    · unfold serializeObjList
      rw [hser, show i0 + (j2 + 1) = i0 + 1 + j2 from by omega]
      simp [List.append_assoc]
    · intro e he
      rcases he with he | he
      · rcases List.mem_append.1 he with he2 | he2
        · exact ⟨0, t, by omega, rfl, by rw [Nat.add_zero]; exact he2⟩
        · obtain ⟨j3, t3, hne3, hidx3, hm3⟩ := hmemAC e (Or.inl he2)
          refine ⟨j3 + 1, t3, by omega, by simp only [PList.idx]; exact hidx3, ?_⟩
          rw [show i0 + (j3 + 1) = i0 + 1 + j3 from by omega]
          exact hm3
      · obtain ⟨j3, t3, hne3, hidx3, hm3⟩ := hmemAC e (Or.inr he)
        refine ⟨j3 + 1, t3, by omega, by simp only [PList.idx]; exact hidx3, ?_⟩
        rw [show i0 + (j3 + 1) = i0 + 1 + j3 from by omega]
        exact hm3

theorem PList.idx_some_lt : ∀ (els : PList) (j : Nat) (t : PTree),
    els.idx j = some t → j < els.length
  | .nil, j, t, h => by simp [PList.idx] at h
  | .cons t0 rest, 0, t, _ => by simp only [PList.length]; omega
  | .cons t0 rest, j + 1, t, h => by
    simp only [PList.idx] at h
    have := PList.idx_some_lt rest j t h
    simp only [PList.length]
    omega

mutual
/-- Round trip: parsing the serialization of a well-formed, valid,
gap-free tree recovers the tree exactly. -/
theorem rt_node (S : SchemaNode) : ∀ (T : PTree) (ρ : Str),
    wfNode S = true → validNode S T = true → gapFreeNode S T = true →
    parseNode (serializeNode S T ρ) S ρ none = T := by
  intro T ρ hwf hval hgap
  cases S with
  | leaf tag =>
    have hp : isPrimitive tag = true := by simpa [wfNode] using hwf
    cases T with
    | leaf v =>
      by_cases hvn : v = .null
      · subst hvn
        have hs0 : serializeNode (.leaf tag) (.leaf .null) ρ = [] := by
          show (match stringifyPrimitive tag .null with
            | some s => [(ρ, s)]
            | none => []) = []
          rw [stringifyPrimitive_null]
        rw [hs0]
        unfold parseNode
        rw [if_pos hp]
        rfl
      · obtain ⟨s, hs, hsne, hsp⟩ := roundKind (by simpa [validNode] using hval) hvn
        have hs1 : serializeNode (.leaf tag) (.leaf v) ρ = [(ρ, s)] := by
          show (match stringifyPrimitive tag v with
            | some s2 => [(ρ, s2)]
            | none => []) = [(ρ, s)]
          rw [hs]
        rw [hs1]
        unfold parseNode
        rw [if_pos hp]
        have hg : jsMapGet [(ρ, s)] ρ = some s := by simp [jsMapGet]
        rw [hg]
        show PTree.leaf (parseKind tag s) = PTree.leaf v
        rw [hsp]
    | arr els => simp [validNode] at hval
    | obj tfs => simp [validNode] at hval
  | arr el =>
    cases T with
    | leaf v => simp [validNode] at hval
    | obj tfs => simp [validNode] at hval
    | arr els =>
      by_cases hp : isPrimElem el = true
      · cases el with
        | arr el2 => simp [isPrimElem] at hp
        | obj fs2 => simp [isPrimElem] at hp
        | leaf tag2 =>
          have hptag : isPrimitive tag2 = true := by simpa [isPrimElem] using hp
          have hv2 : validPrimList tag2 els = true := by
            simpa [validNode, hp, elemTag] using hval
          have hn2 : noNullPrimList els = true := by
            simpa [gapFreeNode, hp] using hgap
          have hser : serializeNode (.arr (.leaf tag2)) (.arr els) ρ
              = serializePrimList tag2 els ρ 0 := by
            show (if isPrimElem (.leaf tag2) = true
              then serializePrimList (elemTag (.leaf tag2)) els ρ 0
              else serializeObjList (.leaf tag2) els ρ 0) = serializePrimList tag2 els ρ 0
            rw [if_pos hp]
            rfl
          rw [hser]
          obtain ⟨pls, he, ha, hb, hi⟩ :=
            parseNode_primArr (serializePrimList tag2 els ρ 0) tag2 ρ none hptag
          rw [he]
          congr 1
          have hcondT : ∀ j, j < els.length →
              condPrim (serializePrimList tag2 els ρ 0) ρ none j = true := by
            intro j hj
            obtain ⟨s, hg, hne, hidx⟩ := serializePrimList_get tag2 ρ els 0 hv2 hn2 j hj
            simp only [Nat.zero_add] at hg
            simp [condPrim, hg, truthyOptStr, hne]
          have hcondF : condPrim (serializePrimList tag2 els ρ 0) ρ none els.length
              = false := by
            have hnone : jsMapGet (serializePrimList tag2 els ρ 0)
                (jp ρ (natToDigits els.length)) = none := by
              apply jsMapGet_eq_none
              intro e he2 hke
              obtain ⟨j2, hj2, hkk⟩ := serializePrimList_mem tag2 ρ els 0 e he2
              rw [hke] at hkk
              have := natToDigits_inj (jp_inj_right hkk)
              omega
            simp [condPrim, hnone, truthyOptStr, dfltIdx, jsTruthyOpt]
          have hlen : pls.length = els.length := stop_unique ha hb hcondT hcondF
          apply plist_ext pls els hlen
          intro j hj
          rw [hi j hj]
          obtain ⟨s, hg, hne, hidx⟩ := serializePrimList_get tag2 ρ els 0 hv2 hn2 j
            (hlen ▸ hj)
          simp only [Nat.zero_add] at hg
          rw [hidx, hg]
          rfl
      · have hpf : isPrimElem el = false := by
          cases hval2 : isPrimElem el
          · rfl
          · exact absurd hval2 hp
        have hwfel : wfNode el = true := by
          cases el with
          | leaf tag =>
            simp only [isPrimElem] at hpf
            simp only [wfNode] at hwf
            rw [hwf] at hpf
            cases hpf
          | arr el2 => simp only [wfNode] at hwf; cases hwf
          | obj fs => simpa [wfNode] using hwf
        have hvO : validObjList el els = true := by simpa [validNode, hpf] using hval
        have hgO : gapFreeObjList el els = true := by simpa [gapFreeNode, hpf] using hgap
        have hser : serializeNode (.arr el) (.arr els) ρ = serializeObjList el els ρ 0 := by
          show (if isPrimElem el = true then serializePrimList (elemTag el) els ρ 0
            else serializeObjList el els ρ 0) = serializeObjList el els ρ 0
          rw [if_neg hp]
        rw [hser]
        obtain ⟨pls, he, ha, hb, hi⟩ :=
          parseNode_objArr (serializeObjList el els ρ 0) el ρ none hpf
        rw [he]
        congr 1
        have hcondT : ∀ j, j < els.length →
            condObj (serializeObjList el els ρ 0) ρ none j = true := by
          intro j hj
          obtain ⟨tj, htj⟩ := PList.idx_lt els j hj
          obtain ⟨hemit, hgapj⟩ := gapFreeObjList_idx els el j tj hgO htj
          obtain ⟨A, C, hdec, hmem⟩ := serializeObjList_decomp el ρ els 0 j tj htj
          simp only [Nat.zero_add] at hdec hmem
          have hne2 : ¬ serializeNode el tj (jp ρ (natToDigits j)) = [] :=
            emitsNode_serialize_ne tj el (jp ρ (natToDigits j)) hemit
          rcases hE : serializeNode el tj (jp ρ (natToDigits j)) with _ | ⟨e, rest2⟩
          · exact absurd hE hne2
          have heMem : e ∈ serializeObjList el els ρ 0 := by
            rw [hdec, hE]
            simp
          have hsh : dotExt (jp ρ (natToDigits j)) e.1 :=
            serializeNode_shape tj el _ e (jp_ne_nil (natToDigits_ne_nil _))
              (by rw [hE]; simp)
          have hpre : strPre (jp ρ (natToDigits j)) e.1 = true := dotExt_strPre hsh
          simp [condObj, probeEx_of_mem heMem hpre]
        have hcondF : condObj (serializeObjList el els ρ 0) ρ none els.length = false := by
          have hpf2 : probeEx (serializeObjList el els ρ 0)
              (jp ρ (natToDigits els.length)) = false := by
            apply probeEx_eq_false
            intro e he2
            obtain ⟨j2, t2, hidx2, hm2⟩ := serializeObjList_mem el ρ els 0 e he2
            have hj2len : j2 < els.length := PList.idx_some_lt els j2 t2 hidx2
            have hsh : dotExt (jp ρ (natToDigits (0 + j2))) e.1 :=
              serializeNode_shape t2 el _ e (jp_ne_nil (natToDigits_ne_nil _)) hm2
            exact sep_probe_digits hj2len (by simpa using hsh)
          simp [condObj, hpf2, dfltIdx, jsTruthyOpt]
        have hlen : pls.length = els.length := stop_unique ha hb hcondT hcondF
        apply plist_ext pls els hlen
        intro j hj
        rw [hi j hj]
        obtain ⟨tj, htj⟩ := PList.idx_lt els j (hlen ▸ hj)
        rw [htj]
        obtain ⟨hemit, hgapj⟩ := gapFreeObjList_idx els el j tj hgO htj
        have hvj : validNode el tj = true := validObjList_idx els el j tj hvO htj
        obtain ⟨A, C, hdec, hmem⟩ := serializeObjList_decomp el ρ els 0 j tj htj
        simp only [Nat.zero_add] at hdec hmem
        have hagree : parseNode (serializeObjList el els ρ 0) el
            (jp ρ (natToDigits j)) none
            = parseNode (serializeNode el tj (jp ρ (natToDigits j))) el
              (jp ρ (natToDigits j)) none := by
          rw [hdec]
          apply parse_agree_node
          · intro k hk
            have hsh := touch_shape_node el (jp ρ (natToDigits j)) k hwfel
              (jp_ne_nil (natToDigits_ne_nil j)) hk
            apply jsMapGet_mid
            · intro e heA
              obtain ⟨j3, t3, hne3, hidx3, hm3⟩ := hmem e (Or.inl heA)
              have hsh3 : dotExt (jp ρ (natToDigits j3)) e.1 :=
                serializeNode_shape t3 el _ e (jp_ne_nil (natToDigits_ne_nil _)) hm3
              exact sep_key ((dotFree_iff _).2 (natToDigits_dotFree j3))
                ((dotFree_iff _).2 (natToDigits_dotFree j))
                (fun hdd => hne3 (natToDigits_inj hdd)) hsh3 hsh
            · intro e heC
              obtain ⟨j3, t3, hne3, hidx3, hm3⟩ := hmem e (Or.inr heC)
              have hsh3 : dotExt (jp ρ (natToDigits j3)) e.1 :=
                serializeNode_shape t3 el _ e (jp_ne_nil (natToDigits_ne_nil _)) hm3
              exact sep_key ((dotFree_iff _).2 (natToDigits_dotFree j3))
                ((dotFree_iff _).2 (natToDigits_dotFree j))
                (fun hdd => hne3 (natToDigits_inj hdd)) hsh3 hsh
          · intro q hpq
            obtain ⟨tq, htq⟩ := probe_shape_node el (jp ρ (natToDigits j)) q hwfel
              (jp_ne_nil (natToDigits_ne_nil j)) hpq
            apply probeEx_mid
            · intro e heA
              obtain ⟨j3, t3, hne3, hidx3, hm3⟩ := hmem e (Or.inl heA)
              have hsh3 : dotExt (jp ρ (natToDigits j3)) e.1 :=
                serializeNode_shape t3 el _ e (jp_ne_nil (natToDigits_ne_nil _)) hm3
              exact sep_probe ((dotFree_iff _).2 (natToDigits_dotFree j))
                ((dotFree_iff _).2 (natToDigits_dotFree j3))
                (fun hdd => hne3 (natToDigits_inj hdd).symm) ⟨tq, htq⟩ hsh3
            · intro e heC
              obtain ⟨j3, t3, hne3, hidx3, hm3⟩ := hmem e (Or.inr heC)
              have hsh3 : dotExt (jp ρ (natToDigits j3)) e.1 :=
                serializeNode_shape t3 el _ e (jp_ne_nil (natToDigits_ne_nil _)) hm3
              exact sep_probe ((dotFree_iff _).2 (natToDigits_dotFree j))
                ((dotFree_iff _).2 (natToDigits_dotFree j3))
                (fun hdd => hne3 (natToDigits_inj hdd).symm) ⟨tq, htq⟩ hsh3
        rw [show dfltIdx (none : Option PTree) j = none from rfl, hagree,
          rt_node el tj (jp ρ (natToDigits j)) hwfel hvj hgapj]
  | obj fs =>
    cases T with
    | leaf v => simp [validNode] at hval
    | arr els => simp [validNode] at hval
    | obj tfs =>
      show parseNode (serializeFieldsGo fs tfs ρ) (.obj fs) ρ none = .obj tfs
      unfold parseNode
      rw [rt_fields fs tfs ρ (by simpa [wfNode] using hwf)
        (by simpa [validNode] using hval) (by simpa [gapFreeNode] using hgap)]
theorem rt_fields (fs : SFields) : ∀ (tfs : PFields) (π : Str),
    wfFields fs = true → validFieldsB fs tfs = true → gapFreeFields fs tfs = true →
    parseFields (serializeFieldsGo fs tfs π) fs π none = tfs := by
  intro tfs π hwf hval hgap
  cases fs with
  | nil =>
    cases tfs with
    | nil => rfl
    | cons g t trest => simp [validFieldsB] at hval
  | cons f sub srest =>
    obtain ⟨t, trest, htfs, hvt, hvrest⟩ := validFieldsB_cons_inv hval
    subst htfs
    simp only [wfFields, Bool.and_eq_true, decide_eq_true_eq] at hwf
    obtain ⟨hf1, hf2, hf3, hf4, hf5⟩ := hwf
    have hfget : SFields.fget (.cons f sub srest) f = some sub := by simp [SFields.fget]
    have hnameR : ∀ g, pfMem g trest = true → ¬ g = f := by
      intro g hg hgf
      subst hgf
      exact hf3 (validFieldsB_names srest trest hvrest g hg)
    have hser : serializeFieldsGo (.cons f sub srest) (.cons f t trest) π
        = serializeNode sub t (jp π f) ++ serializeFieldsGo srest trest π := by
      show (match SFields.fget (.cons f sub srest) f with
        | some sub2 => serializeNode sub2 t (jp π f)
        | none => []) ++ serializeFieldsGo (.cons f sub srest) trest π
        = serializeNode sub t (jp π f) ++ serializeFieldsGo srest trest π
      rw [hfget, serializeFieldsGo_skip f sub srest trest π hnameR]
    have hgap2 : gapFreeNode sub t = true ∧ gapFreeFields srest trest = true := by
      have hgap3 : gapFreeFields (.cons f sub srest) (.cons f t trest) = true := hgap
      unfold gapFreeFields at hgap3
      rw [hfget, gapFreeFields_skip f sub srest trest hnameR] at hgap3
      simp only at hgap3
      simpa [Bool.and_eq_true] using hgap3
    have h1 : parseNode (serializeNode sub t (jp π f) ++ serializeFieldsGo srest trest π)
        sub (jp π f) none = t := by
      have hagree : parseNode (serializeNode sub t (jp π f)
            ++ serializeFieldsGo srest trest π) sub (jp π f) none
          = parseNode (serializeNode sub t (jp π f)) sub (jp π f) none := by
        apply parse_agree_node
        · intro k hk
          have hsh := touch_shape_node sub (jp π f) k hf4 (jp_ne_nil hf1) hk
          have hmid : jsMapGet ([] ++ serializeNode sub t (jp π f)
              ++ serializeFieldsGo srest trest π) k
              = jsMapGet (serializeNode sub t (jp π f)) k := by
            apply jsMapGet_mid
            · intro e he
              simp at he
            · intro e heC
              obtain ⟨g, t2, sub2, hgm, hget2, hm2⟩ := serializeFieldsGo_mem trest srest π e heC
              have hgF : fieldMem g srest = true := validFieldsB_names srest trest hvrest g hgm
              obtain ⟨hg1, hg2⟩ := wf_field_props srest g hf5 hgF
              have hgne : ¬ g = f := fun he2 => hf3 (he2 ▸ hgF)
              have hsh2 : dotExt (jp π g) e.1 :=
                serializeNode_shape t2 sub2 (jp π g) e (jp_ne_nil hg1) hm2
              exact sep_key hg2 hf2 hgne hsh2 hsh
          simpa using hmid
        · intro q hpq
          obtain ⟨tq, htq⟩ := probe_shape_node sub (jp π f) q hf4 (jp_ne_nil hf1) hpq
          have hmid : probeEx ([] ++ serializeNode sub t (jp π f)
              ++ serializeFieldsGo srest trest π) q
              = probeEx (serializeNode sub t (jp π f)) q := by
            apply probeEx_mid
            · intro e he
              simp at he
            · intro e heC
              obtain ⟨g, t2, sub2, hgm, hget2, hm2⟩ := serializeFieldsGo_mem trest srest π e heC
              have hgF : fieldMem g srest = true := validFieldsB_names srest trest hvrest g hgm
              obtain ⟨hg1, hg2⟩ := wf_field_props srest g hf5 hgF
              have hgne2 : ¬ f = g := fun he2 => hf3 (he2.symm ▸ hgF)
              have hsh2 : dotExt (jp π g) e.1 :=
                serializeNode_shape t2 sub2 (jp π g) e (jp_ne_nil hg1) hm2
              exact sep_probe hf2 hg2 hgne2 ⟨tq, htq⟩ hsh2
          simpa using hmid
      rw [hagree]
      exact rt_node sub t (jp π f) hf4 hvt hgap2.1
    have h2 : parseFields (serializeNode sub t (jp π f)
        ++ serializeFieldsGo srest trest π) srest π none = trest := by
      have hagree2 : parseFields (serializeNode sub t (jp π f)
            ++ serializeFieldsGo srest trest π) srest π none
          = parseFields (serializeFieldsGo srest trest π) srest π none := by
        apply parse_agree_fields
        · intro k hk
          obtain ⟨g, hgm, hsh⟩ := touch_shape_fields srest π k hf5 hk
          obtain ⟨hg1, hg2⟩ := wf_field_props srest g hf5 hgm
          have hgne : ¬ g = f := fun he2 => hf3 (he2 ▸ hgm)
          have hmid : jsMapGet (serializeNode sub t (jp π f)
              ++ serializeFieldsGo srest trest π ++ []) k
              = jsMapGet (serializeFieldsGo srest trest π) k := by
            apply jsMapGet_mid
            · intro e heA
              have hsh2 : dotExt (jp π f) e.1 :=
                serializeNode_shape t sub (jp π f) e (jp_ne_nil hf1) heA
              exact sep_key hf2 hg2 (fun he2 => hgne he2.symm) hsh2 hsh
            · intro e he
              simp at he
          simpa using hmid
        · intro q hpq
          obtain ⟨g, tq, hgm, htq⟩ := probe_shape_fields srest π q hf5 hpq
          obtain ⟨hg1, hg2⟩ := wf_field_props srest g hf5 hgm
          have hgne : ¬ g = f := fun he2 => hf3 (he2 ▸ hgm)
          have hmid : probeEx (serializeNode sub t (jp π f)
              ++ serializeFieldsGo srest trest π ++ []) q
              = probeEx (serializeFieldsGo srest trest π) q := by
            apply probeEx_mid
            · intro e heA
              have hsh2 : dotExt (jp π f) e.1 :=
                serializeNode_shape t sub (jp π f) e (jp_ne_nil hf1) heA
              exact sep_probe hg2 hf2 hgne ⟨tq, htq⟩ hsh2
            · intro e he
              simp at he
          simpa using hmid
      rw [hagree2]
      exact rt_fields srest trest π hf5 hvrest hgap2.2
    rw [hser]
    unfold parseFields
    rw [show dfltField (none : Option PTree) f = none from rfl, h1, h2]
end

/-- C1 (amended): serializing a parse and re-parsing with the same schema
recovers the parse exactly **when the parsed tree is gap-free** — no
primitive array holds a null element and every array-of-object element
emits at least one key.  Without that hypothesis the round trip can lose
non-null leaves, because a vanished array entry truncates the re-parse
scan before later entries (see the counterexample): the parse is then not
the original restricted to non-null leaves. -/
theorem claim1_roundtrip_amended (S : SchemaNode) (M : List (Str × Str))
    (hwf : wfNode S = true)
    (hgap : gapFreeNode S (parseFlat S M none) = true) :
    parseFlat S (serializeTree S (parseFlat S M none)) none = parseFlat S M none := by
  have hvalid : validNode S (parseFlat S M none) = true := validNode_parse S M [] hwf
  exact rt_node S (parseFlat S M none) [] hwf hvalid hgap

/-- Closed instance of C1: the gap-free parse of `tags.0=a, tags.1=b`
under `{tags:['string']}` survives the round trip unchanged. -/
theorem claim1_witness :
    gapFreeNode cSchemaTags (parseFlat cSchemaTags
      [(strOf "tags.0", strOf "a"), (strOf "tags.1", strOf "b")] none) = true
    ∧ parseFlat cSchemaTags (serializeTree cSchemaTags (parseFlat cSchemaTags
        [(strOf "tags.0", strOf "a"), (strOf "tags.1", strOf "b")] none)) none
      = parseFlat cSchemaTags [(strOf "tags.0", strOf "a"), (strOf "tags.1", strOf "b")] none := by
  refine ⟨by decide, ?_⟩
  exact claim1_roundtrip_amended cSchemaTags
    [(strOf "tags.0", strOf "a"), (strOf "tags.1", strOf "b")] (by decide) (by decide)
